import Mathlib

/-!
# Verification of the `webcrawler` repository

Shallow embedding of `src/crawl.py` (an asyncio-based same-domain web
crawler) and proofs about it.

* Pure helpers (`normalize_url`, the HTML extraction helpers,
  `extract_page_data`) are translated directly into Lean functions.
* The external library functions the source calls (`urllib.parse.urlparse`,
  `urllib.parse.urljoin`, BeautifulSoup queries) are modelled faithfully
  for the fragment of inputs exercised here: ASCII strings without
  query (`?`), fragment (`#`) or dot segments in joined paths.  HTML is
  modelled as an already-parsed tree (parsing raw markup is out of scope,
  per the spec §1).
* The concurrent crawl (`AsyncCrawler`) is modelled as a small-step
  transition system over an explicit crawl state: each constructor of
  `CrawlStep` corresponds to the code that runs atomically between two
  `await` suspension points of `crawl_page`.
-/

namespace Crawler

/-! ## ASCII lowercasing (model of Python `str.lower` for ASCII data) -/

/-- ASCII lowercasing of one character, as `str.lower` acts on ASCII input
(`normalize_url` lowercases its result; non-ASCII behaviour is not
exercised by this development). -/
def lowerChar (c : Char) : Char :=
  if 65 ≤ c.toNat ∧ c.toNat ≤ 90 then Char.ofNat (c.toNat + 32) else c

theorem charToNat_ofNat (n : Nat) (h1 : 97 ≤ n) (h2 : n ≤ 122) :
    (Char.ofNat n).toNat = n := by
  have hv : n.isValidChar := Or.inl (by omega)
  rw [Char.ofNat, dif_pos hv]
  rfl

theorem charEq_of_toNat {a b : Char} (h : a.toNat = b.toNat) : a = b :=
  Char.ext (UInt32.ext h)

theorem lowerChar_toNat_upper (c : Char) (h : 65 ≤ c.toNat ∧ c.toNat ≤ 90) :
    (lowerChar c).toNat = c.toNat + 32 := by
  rw [lowerChar, if_pos h]
  exact charToNat_ofNat _ (by omega) (by omega)

theorem lowerChar_eq_self (c : Char) (h : ¬(65 ≤ c.toNat ∧ c.toNat ≤ 90)) :
    lowerChar c = c := by
  rw [lowerChar, if_neg h]

theorem lowerChar_idem (c : Char) : lowerChar (lowerChar c) = lowerChar c := by
  by_cases h : 65 ≤ c.toNat ∧ c.toNat ≤ 90
  · have h2 := lowerChar_toNat_upper c h
    exact lowerChar_eq_self _ (by omega)
  · rw [lowerChar_eq_self c h]
    exact lowerChar_eq_self c h

/-- Characters outside both ASCII letter ranges are moved to by nothing and
fixed by `lowerChar`. -/
theorem lowerChar_eq_iff (c d : Char) (hupp : ¬(65 ≤ d.toNat ∧ d.toNat ≤ 90))
    (hlow : ¬(97 ≤ d.toNat ∧ d.toNat ≤ 122)) :
    lowerChar c = d ↔ c = d := by
  constructor
  · intro h
    by_cases hc : 65 ≤ c.toNat ∧ c.toNat ≤ 90
    · exfalso
      have h2 := lowerChar_toNat_upper c hc
      rw [h] at h2
      omega
    · rwa [lowerChar_eq_self c hc] at h
  · intro h
    subst h
    exact lowerChar_eq_self c hupp

theorem isUpper_iff (c : Char) : c.isUpper = true ↔ 65 ≤ c.toNat ∧ c.toNat ≤ 90 := by
  simp [Char.isUpper, Char.toNat, UInt32.le_def, BitVec.le_def]
  exact Iff.rfl

theorem isLower_iff (c : Char) : c.isLower = true ↔ 97 ≤ c.toNat ∧ c.toNat ≤ 122 := by
  simp [Char.isLower, Char.toNat, UInt32.le_def, BitVec.le_def]
  exact Iff.rfl

theorem isDigit_iff (c : Char) : c.isDigit = true ↔ 48 ≤ c.toNat ∧ c.toNat ≤ 57 := by
  simp [Char.isDigit, Char.toNat, UInt32.le_def, BitVec.le_def]
  exact Iff.rfl

theorem isAlpha_lowerChar (c : Char) : (lowerChar c).isAlpha = c.isAlpha := by
  by_cases h : 65 ≤ c.toNat ∧ c.toNat ≤ 90
  · have h2 := lowerChar_toNat_upper c h
    have hcu : c.isAlpha = true := by
      simp [Char.isAlpha]
      exact Or.inl ((isUpper_iff c).mpr h)
    have hlu : (lowerChar c).isAlpha = true := by
      simp [Char.isAlpha]
      exact Or.inr ((isLower_iff _).mpr (by omega))
    rw [hcu, hlu]
  · rw [lowerChar_eq_self c h]

/-! ## Model of `urllib.parse.urlparse` (netloc/path extraction)

`normalize_url` (crawl.py lines 7-11) and the scope check (line 132) use
only `parsed.netloc` and `parsed.path`.  The model follows CPython's
`urlsplit`: split a leading `scheme:` (first `:` preceded by a letter and
scheme characters only), read a `//netloc` delimited by `/?#`, cut the
path at the first `?` or `#`, and (as `urlparse` does on top of
`urlsplit`) split `;parameters` off the last path segment when the scheme
is in `uses_params`.  WHATWG control-character stripping is not modelled.
-/

/-- Characters allowed in a URL scheme (CPython `scheme_chars`). -/
def schemeChar (c : Char) : Bool :=
  c.isAlpha || c.isDigit || c == '+' || c == '-' || c == '.'

/-- Split a list at its first `':'`, returning the parts before and after. -/
def splitOnColon : List Char → Option (List Char × List Char)
  | [] => none
  | c :: cs =>
    if c = ':' then some ([], cs)
    else
      match splitOnColon cs with
      | none => none
      | some (a, b) => some (c :: a, b)

def headIsAlpha : List Char → Bool
  | [] => false
  | c :: _ => c.isAlpha

/-- CPython `urlsplit` scheme detection: the text before the first `:` is a
scheme iff it is nonempty, starts with a letter and consists of scheme
characters; the scheme is lowercased. -/
def splitSchemeCL (l : List Char) : Option (List Char) × List Char :=
  match splitOnColon l with
  | none => (none, l)
  | some (sch, rest) =>
    if headIsAlpha sch && sch.all schemeChar then (some (sch.map lowerChar), rest)
    else (none, l)

def notNetlocDelim (c : Char) : Bool := !(c == '/' || c == '?' || c == '#')

/-- After the scheme, a netloc is present iff the remainder starts with
`//` (CPython `url[:2] == '//'`); it extends to the next `/`, `?` or
`#`. -/
def netlocSplit (l : List Char) : List Char × List Char :=
  match l with
  | c1 :: c2 :: r =>
    if c1 = '/' ∧ c2 = '/' then (r.takeWhile notNetlocDelim, r.dropWhile notNetlocDelim)
    else ([], l)
  | _ => ([], l)

def notQF (c : Char) : Bool := !(c == '?' || c == '#')

/-- The path component: everything up to the first `?` or `#`. -/
def rawPath (l : List Char) : List Char := l.takeWhile notQF

/-- CPython `uses_params`. -/
def usesParams : List String :=
  ["", "ftp", "hdl", "prospero", "http", "imap", "https", "shttp", "rtsp",
   "rtspu", "sip", "sips", "mms", "sftp", "tel"]

/-- CPython `_splitparams`: drop `;parameters` from the last path segment
(from the whole path if it contains no `/`).  Only called when the path
contains a `';'`. -/
def dropParams (p : List Char) : List Char :=
  if p.any (fun c => c == '/') then
    let revp := p.reverse
    let seg := revp.takeWhile (fun c => !(c == '/'))
    let before := revp.dropWhile (fun c => !(c == '/'))
    before.reverse ++ seg.reverse.takeWhile (fun c => !(c == ';'))
  else p.takeWhile (fun c => !(c == ';'))

/-- `(urlparse(url).netloc, urlparse(url).path)` as character lists. -/
def urlparseNetlocPath (l : List Char) : List Char × List Char :=
  let (sch, rest) := splitSchemeCL l
  let (nl, r2) := netlocSplit rest
  let p := rawPath r2
  let schemeName : String := String.mk (sch.getD [])
  let p2 :=
    if usesParams.contains schemeName && p.any (fun c => c == ';') then dropParams p else p
  (nl, p2)

/-- Strip every trailing `'/'` (Python `str.rstrip("/")`). -/
def rstripSlashes (l : List Char) : List Char :=
  (l.reverse.dropWhile (fun c => c == '/')).reverse

/-- crawl.py lines 7-11: `normalize_url` — netloc + path, with all trailing
slashes stripped, lowercased. -/
def normalize_url (url : String) : String :=
  String.mk ((rstripSlashes ((urlparseNetlocPath url.data).1 ++ (urlparseNetlocPath url.data).2)).map lowerChar)

/-- `urlparse(url).netloc` — used by the crawler for its domain scope check
(crawl.py lines 77 and 132-133). -/
def netlocOf (url : String) : String :=
  String.mk (urlparseNetlocPath url.data).1

-- unit checks mirroring the cases of test_crawl.py
example : normalize_url "https://blog.boot.dev/path" = "blog.boot.dev/path" := by decide
example : normalize_url "https://blog.boot.dev/path/" = "blog.boot.dev/path" := by decide
example : normalize_url "https://BLOG.boot.dev/path" = "blog.boot.dev/path" := by decide
example : normalize_url "http://BLOG.boot.dev/path" = "blog.boot.dev/path" := by decide
example : netlocOf "https://blog.boot.dev/path" = "blog.boot.dev" := by decide
example : normalize_url "https://blog.boot.dev:443/path" = "blog.boot.dev:443/path" := by decide
example : normalize_url "blog.boot.dev:443/path" = "443/path" := by decide
example : normalize_url "https://blog.boot.dev/path//" = "blog.boot.dev/path" := by decide
example : normalize_url "https://h/a;b" = "h/a" := by decide

/-! ## Model of `urllib.parse.urljoin`

Used by `get_urls_from_html` / `get_images_from_html` (crawl.py lines 40
and 56).  Follows CPython `urljoin` for URLs without query, fragment,
params or dot segments: adopt the base scheme when the reference has
none; keep the reference unchanged when its scheme differs from the
base's; keep an absolute reference with a netloc; resolve an
absolute-path reference against the base netloc, and merge a relative
path onto the base path with the base's last segment dropped. -/

/-- CPython `uses_relative`. -/
def usesRelative : List String :=
  ["", "ftp", "http", "gopher", "nntp", "imap", "wais", "file", "https",
   "shttp", "mms", "prospero", "rtsp", "rtspu", "sftp", "svn", "svn+ssh",
   "ws", "wss"]

/-- CPython `uses_netloc`. -/
def usesNetloc : List String :=
  ["", "ftp", "http", "gopher", "nntp", "telnet", "imap", "wais", "file",
   "mms", "https", "shttp", "snews", "prospero", "rtsp", "rtspu", "rsync",
   "svn", "svn+ssh", "sftp", "nfs", "git", "git+ssh", "ws", "wss"]

/-- `(scheme?, netloc, path)` of a URL, per `urlsplit`. -/
def urlsplit3 (l : List Char) : Option (List Char) × List Char × List Char :=
  let (sch, rest) := splitSchemeCL l
  let (nl, r2) := netlocSplit rest
  (sch, nl, rawPath r2)

/-- CPython `urlunsplit` restricted to scheme/netloc/path. -/
def urlunsplitM (sch nl p : List Char) : List Char :=
  let u :=
    if nl ≠ [] ∨ p.take 2 = ['/', '/'] then
      '/' :: '/' :: (nl ++ (if p ≠ [] ∧ p.head? ≠ some '/' then '/' :: p else p))
    else p
  if sch ≠ [] then sch ++ ':' :: u else u

/-- `path.split("/")` on character lists. -/
def splitOnSlashCL : List Char → List (List Char)
  | [] => [[]]
  | c :: t =>
    if c = '/' then [] :: splitOnSlashCL t
    else
      match splitOnSlashCL t with
      | s :: ss => (c :: s) :: ss
      | [] => [[c]]

/-- `"/".join(segments)` on character lists. -/
def joinSlashCL : List (List Char) → List Char
  | [] => []
  | [x] => x
  | x :: rest => x ++ '/' :: joinSlashCL rest

/-- Filter empty segments, keeping the last element (CPython filters
`segments[1:-1]` before re-joining). -/
def keepLastFilter : List (List Char) → List (List Char)
  | [] => []
  | [y] => [y]
  | y :: r => if y = [] then keepLastFilter r else y :: keepLastFilter r

def cleanSegs : List (List Char) → List (List Char)
  | [] => []
  | x :: rest => x :: keepLastFilter rest

/-- Relative-path merge of CPython `urljoin` (dot segments not modelled):
base path with its last segment dropped (unless it ends in `/`), then the
reference segments, with redundant empty middle segments removed. -/
def mergePaths (bp up : List Char) : List Char :=
  let parts := splitOnSlashCL bp
  let parts := if parts.getLast? = some [] then parts else parts.dropLast
  joinSlashCL (cleanSegs (parts ++ splitOnSlashCL up))

/-- Model of `urllib.parse.urljoin` (see section comment above). -/
def urljoin (base url : String) : String :=
  if base = "" then url
  else if url = "" then base
  else
    let bsp := urlsplit3 base.data
    let usp := urlsplit3 url.data
    let sB := bsp.1.getD []
    let sU := usp.1.getD sB
    if sU ≠ sB ∨ ¬ usesRelative.contains (String.mk sU) then url
    else
      let inNL := usesNetloc.contains (String.mk sU)
      if inNL ∧ usp.2.1 ≠ [] then String.mk (urlunsplitM sU usp.2.1 usp.2.2)
      else
        let nl := if inNL then bsp.2.1 else usp.2.1
        if usp.2.2 = [] then String.mk (urlunsplitM sU nl bsp.2.2)
        else if usp.2.2.head? = some '/' then String.mk (urlunsplitM sU nl usp.2.2)
        else String.mk (urlunsplitM sU nl (mergePaths bsp.2.2 usp.2.2))

example : urljoin "https://blog.boot.dev" "/path/one" = "https://blog.boot.dev/path/one" := by decide
example : urljoin "https://blog.boot.dev" "https://blog.boot.dev" = "https://blog.boot.dev" := by decide
example : urljoin "https://blog.boot.dev" "https://other.com/path/one" = "https://other.com/path/one" := by decide
example : urljoin "https://blog.boot.dev" "/logo.png" = "https://blog.boot.dev/logo.png" := by decide
example : urljoin "https://site.test" "p" = "https://site.test/p" := by decide
example : urljoin "https://site.test/sub/" "p" = "https://site.test/sub/p" := by decide
example : urljoin "https://site.test/sub/file" "p" = "https://site.test/sub/p" := by decide

/-! ## HTML model and the extraction helpers

BeautifulSoup parsing is out of scope (spec §1); a parsed page is a forest
of nodes.  `find` returns the first matching element in document
(pre-order) order; `find` on a tag searches its descendants;
`get_text(strip=True)` concatenates the stripped descendant strings. -/

inductive Html where
  | text : String → Html
  | elem : String → List (String × String) → List Html → Html

/-- `tag.get(name)` — attribute lookup. -/
def attrOf (attrs : List (String × String)) (name : String) : Option String :=
  match attrs.find? (fun a => a.1 == name) with
  | some a => some a.2
  | none => none

def attrsOf : Html → List (String × String)
  | .text _ => []
  | .elem _ attrs _ => attrs

def childrenOf : Html → List Html
  | .text _ => []
  | .elem _ _ ch => ch

mutual

/-- First element with the given tag in the subtree rooted at a node
(including the node itself), pre-order. -/
def findTagNode (tag : String) : Html → Option Html
  | .text _ => none
  | .elem t attrs ch =>
    if t = tag then some (.elem t attrs ch) else findTagList tag ch

/-- `soup.find(tag)` on a forest, document order. -/
def findTagList (tag : String) : List Html → Option Html
  | [] => none
  | n :: ns =>
    match findTagNode tag n with
    | some r => some r
    | none => findTagList tag ns

end

mutual

/-- All elements with the given tag in a subtree, document order
(`find_all`). -/
def allTagsNode (tag : String) : Html → List Html
  | .text _ => []
  | .elem t attrs ch =>
    (if t = tag then [Html.elem t attrs ch] else []) ++ allTagsList tag ch

def allTagsList (tag : String) : List Html → List Html
  | [] => []
  | n :: ns => allTagsNode tag n ++ allTagsList tag ns

end

mutual

/-- The strings of all descendant text nodes, document order. -/
def textsOf : Html → List String
  | .text s => [s]
  | .elem _ _ ch => textsOfList ch

def textsOfList : List Html → List String
  | [] => []
  | n :: ns => textsOf n ++ textsOfList ns

end

/-- Python `str.strip()` whitespace (ASCII fragment). -/
def isSpaceChar (c : Char) : Bool :=
  c == ' ' || c == '\t' || c == '\n' || c == '\r'

def pyStrip (s : String) : String :=
  String.mk (((s.data.dropWhile isSpaceChar).reverse.dropWhile isSpaceChar).reverse)

/-- `node.get_text(strip=True)` with the default `""` separator: join the
stripped descendant strings. -/
def getTextStrip (n : Html) : String :=
  String.join ((textsOf n).map pyStrip)

/-- crawl.py lines 14-17: `get_h1_from_html`. -/
def get_h1_from_html (html : List Html) : String :=
  match findTagList "h1" html with
  | some t => getTextStrip t
  | none => ""

/-- crawl.py lines 20-29: `get_first_paragraph_from_html` — the first
`<p>` inside `<main>` if a `<main>` exists, else the first `<p>` of the
document, else `""`. -/
def get_first_paragraph_from_html (html : List Html) : String :=
  match findTagList "main" html with
  | some m =>
    match findTagList "p" (childrenOf m) with
    | some p => getTextStrip p
    | none => ""
  | none =>
    match findTagList "p" html with
    | some p => getTextStrip p
    | none => ""

/-- crawl.py lines 32-45: `get_urls_from_html` — for every anchor with a
non-empty `href` (the walrus `if href := anchor.get("href")` skips missing
and empty values), resolve it against `base_url`. -/
def get_urls_from_html (html : List Html) (base_url : String) : List String :=
  (allTagsList "a" html).filterMap (fun a =>
    match attrOf (attrsOf a) "href" with
    | some h => if h = "" then none else some (urljoin base_url h)
    | none => none)

/-- crawl.py lines 48-61: `get_images_from_html`. -/
def get_images_from_html (html : List Html) (base_url : String) : List String :=
  (allTagsList "img" html).filterMap (fun i =>
    match attrOf (attrsOf i) "src" with
    | some s => if s = "" then none else some (urljoin base_url s)
    | none => none)

/-- The extracted page record (crawl.py lines 64-71). -/
structure PageRecord where
  url : String
  h1 : String
  first_paragraph : String
  outgoing_links : List String
  image_urls : List String
deriving DecidableEq

/-- crawl.py lines 64-71: `extract_page_data`. -/
def extract_page_data (html : List Html) (page_url : String) : PageRecord :=
  { url := page_url
    h1 := get_h1_from_html html
    first_paragraph := get_first_paragraph_from_html html
    outgoing_links := get_urls_from_html html page_url
    image_urls := get_images_from_html html page_url }

/-! ## The crawl engine (`AsyncCrawler`, crawl.py lines 74-178)

The crawler is modelled as a small-step transition system.  A crawl
*task* is one invocation of `crawl_page`; the asyncio event loop
interleaves tasks only at `await` points, so each `CrawlStep` constructor
bundles the code one task runs between two suspension points:

* `reserve` — from task start through the `add_page_visit` critical
  section (lines 129-140): stop-flag check, domain scope check,
  normalization, and the reservation decision under the lock.
* `acquire` — the task obtains a semaphore slot (line 142).
* `fetchDone` — the `get_html` awaited at line 145 completes; if it
  yielded a body the task records the page under the lock (lines
  149-151), computes the fan-out links from the *base* URL (line 153),
  releases the slot (exit of the `async with` block), checks
  `should_stop` (line 155) and spawns one child task per link (lines
  158-162); the parent's own remaining work (awaiting `gather`) has no
  further effect on shared state.
* `cancelled` — a task whose `Task.cancel` was requested (line 105)
  raises `CancelledError` at its next suspension point and unwinds,
  releasing the semaphore slot if it held one; `gather` with
  `return_exceptions=True` absorbs the exception (line 166).

The fetcher is a parameter of the configuration: `cfg.fetch url` is the
response the network returns for `url`. -/

/-- What the network returns for one GET: a transport error or a response
with status, content type and (already parsed) body. -/
inductive FetchResult where
  | transportError : FetchResult
  | response (status : Nat) (contentType : String) (body : List Html)

/-- Substring test (Python's `in` on strings). -/
def containsSeq (hay pat : List Char) : Bool :=
  match hay with
  | [] => pat.isPrefixOf []
  | c :: t => pat.isPrefixOf (c :: t) || containsSeq t pat

/-- crawl.py lines 109-126: `get_html` returns the body only for a
non-error response with status ≤ 399 whose content type contains
`"text/html"`; otherwise `None`. -/
def get_html (r : FetchResult) : Option (List Html) :=
  match r with
  | .transportError => none
  | .response status ct body =>
    if 399 < status then none
    else if containsSeq ct.data "text/html".data then some body
    else none

/-- One crawl run's fixed configuration (`AsyncCrawler.__init__` arguments
plus the network's behaviour). -/
structure Config where
  baseUrl : String
  maxConcurrency : Nat
  maxPages : Nat
  fetch : String → FetchResult

/-- `self.base_domain = urlparse(base_url).netloc` (crawl.py line 77). -/
def Config.base_domain (cfg : Config) : String := netlocOf cfg.baseUrl

/-- Where one `crawl_page` invocation currently is:
`ready` — scheduled, body not yet started;
`admitted` — reservation succeeded (with the reserved normalized key),
waiting on the semaphore;
`fetching` — holding a semaphore slot, awaiting `get_html`;
`done` — returned (normally, skipped, or cancelled). -/
inductive TaskPhase where
  | ready
  | admitted (key : String)
  | fetching (key : String)
  | done
deriving DecidableEq

/-- One `crawl_page` invocation.  `inAllTasks` is true for tasks created
by `asyncio.create_task` at line 160 and added to `self.all_tasks`
(line 162); the root call (line 172) is awaited directly and never in
`all_tasks`.  `cancelled` records a pending `Task.cancel()`. -/
structure CrawlTask where
  url : String
  phase : TaskPhase
  cancelled : Bool
  inAllTasks : Bool
deriving DecidableEq

/-- The shared mutable state of `AsyncCrawler`: `self.page_data` (a dict,
modelled as an insertion-ordered association list), `self.should_stop`,
the semaphore's free-slot count, and the set of tasks. -/
structure CrawlState where
  page_data : List (String × PageRecord)
  should_stop : Bool
  semAvail : Nat
  tasks : List CrawlTask
deriving DecidableEq

/-- `normalized_url in self.page_data` (crawl.py line 98). -/
def hasKey (k : String) (m : List (String × PageRecord)) : Bool :=
  m.any (fun e => e.1 == k)

/-- `self.page_data[normalized_url] = page_info` — Python dict update:
replace in place if the key exists, else append. -/
def dictInsert (k : String) (v : PageRecord) : List (String × PageRecord) → List (String × PageRecord)
  | [] => [(k, v)]
  | e :: rest => if e.1 = k then (k, v) :: rest else e :: dictInsert k v rest

/-- Lines 103-105: `task.cancel()` for every not-done task in
`self.all_tasks`. -/
def flagCancel (t : CrawlTask) : CrawlTask :=
  if t.inAllTasks ∧ t.phase ≠ .done then { t with cancelled := true } else t

/-- crawl.py lines 94-107: `add_page_visit` — the reservation decision
made under `self.lock`.  Returns the boolean result and the state after
the critical section. -/
def add_page_visit (cfg : Config) (s : CrawlState) (key : String) : Bool × CrawlState :=
  if s.should_stop then (false, s)
  else if hasKey key s.page_data then (false, s)
  else if cfg.maxPages ≤ s.page_data.length then
    (false, { s with should_stop := true, tasks := s.tasks.map flagCancel })
  else (true, s)

def markDone (t : CrawlTask) : CrawlTask := { t with phase := .done }

/-- Effect of one task running crawl.py lines 129-140 (entry stop check,
scope check, normalization, `add_page_visit`): the task either terminates
or becomes `admitted`; on the limit branch the stop flag is set and every
not-done member of `all_tasks` is flagged cancelled. -/
def reserveResult (cfg : Config) (s : CrawlState) (l r : List CrawlTask) (t : CrawlTask) : CrawlState :=
  if s.should_stop then { s with tasks := l ++ markDone t :: r }
  else if netlocOf t.url ≠ cfg.base_domain then { s with tasks := l ++ markDone t :: r }
  else
    let key := normalize_url t.url
    if hasKey key s.page_data then { s with tasks := l ++ markDone t :: r }
    else if cfg.maxPages ≤ s.page_data.length then
      { s with should_stop := true,
               tasks := l.map flagCancel ++ markDone (flagCancel t) :: r.map flagCancel }
    else { s with tasks := l ++ { t with phase := .admitted key } :: r }

/-- Effect of acquiring a semaphore slot (line 142). -/
def acquireResult (s : CrawlState) (l r : List CrawlTask) (t : CrawlTask) (key : String) : CrawlState :=
  { s with semAvail := s.semAvail - 1,
           tasks := l ++ { t with phase := .fetching key } :: r }

/-- `asyncio.create_task(self.crawl_page(next_url))`, added to
`self.all_tasks` (lines 160-162). -/
def spawnTask (u : String) : CrawlTask :=
  { url := u, phase := .ready, cancelled := false, inAllTasks := true }

/-- Effect of the fetch completing (lines 145-162): on `None` the task
returns, releasing its slot; on a body it records the page under the lock
(lines 149-151, with **no** stop-flag check), computes `next_urls` from
`self.base_url` (line 153), releases the slot, and unless `should_stop`
spawns one child task per link. -/
def completeFetch (cfg : Config) (s : CrawlState) (l r : List CrawlTask) (t : CrawlTask) (key : String) : CrawlState :=
  match get_html (cfg.fetch t.url) with
  | none => { s with semAvail := s.semAvail + 1, tasks := l ++ markDone t :: r }
  | some html =>
    let page_info := extract_page_data html t.url
    let pd := dictInsert key page_info s.page_data
    let next_urls := get_urls_from_html html cfg.baseUrl
    if s.should_stop then
      { s with page_data := pd, semAvail := s.semAvail + 1, tasks := l ++ markDone t :: r }
    else
      { s with page_data := pd, semAvail := s.semAvail + 1,
               tasks := (l ++ markDone t :: r) ++ next_urls.map spawnTask }

def isFetching : TaskPhase → Bool
  | .fetching _ => true
  | _ => false

/-- Effect of a pending cancellation striking a task at its next
suspension point: it unwinds, releasing the semaphore slot if it held
one (the `async with self.semaphore` block's exit runs on unwind). -/
def cancelResult (s : CrawlState) (l r : List CrawlTask) (t : CrawlTask) : CrawlState :=
  { s with semAvail := if isFetching t.phase then s.semAvail + 1 else s.semAvail,
           tasks := l ++ markDone t :: r }

/-- One interleaving step of the crawl: some task runs from one
suspension point to the next (see the section comment for the code each
constructor covers). -/
inductive CrawlStep (cfg : Config) : CrawlState → CrawlState → Prop where
  | reserve (s : CrawlState) (l r : List CrawlTask) (t : CrawlTask)
      (hts : s.tasks = l ++ t :: r) (hph : t.phase = .ready) :
      CrawlStep cfg s (reserveResult cfg s l r t)
  | acquire (s : CrawlState) (l r : List CrawlTask) (t : CrawlTask) (key : String)
      (hts : s.tasks = l ++ t :: r) (hph : t.phase = .admitted key)
      (hsem : 0 < s.semAvail) :
      CrawlStep cfg s (acquireResult s l r t key)
  | fetchDone (s : CrawlState) (l r : List CrawlTask) (t : CrawlTask) (key : String)
      (hts : s.tasks = l ++ t :: r) (hph : t.phase = .fetching key) :
      CrawlStep cfg s (completeFetch cfg s l r t key)
  | cancelled (s : CrawlState) (l r : List CrawlTask) (t : CrawlTask)
      (hts : s.tasks = l ++ t :: r) (hc : t.cancelled = true)
      (hph : t.phase ≠ .done) :
      CrawlStep cfg s (cancelResult s l r t)

/-- The state in which `crawl_site_async` starts the crawl: empty ledger,
stop flag clear, all semaphore slots free, and the single root
`crawl_page(self.base_url)` invocation (lines 171-178). -/
def initState (cfg : Config) : CrawlState :=
  { page_data := []
    should_stop := false
    semAvail := cfg.maxConcurrency
    tasks := [{ url := cfg.baseUrl, phase := .ready, cancelled := false, inAllTasks := false }] }

/-- States a crawl run can pass through. -/
def Reachable (cfg : Config) : CrawlState → CrawlState → Prop :=
  Relation.ReflTransGen (CrawlStep cfg)

/-! ## A concrete crawl run that overruns `maxPages`

Site: the seed page links to two in-domain leaf pages `/a` and `/b`.
Run with `max_concurrency = 1`, `max_pages = 2`.  Under the plain FIFO
asyncio schedule both child tasks pass `add_page_visit` (each sees one
recorded page, `1 < 2`) before either completes its fetch; both then
record their page unconditionally (lines 150-151 take the lock but never
re-check `should_stop`), so the final mapping has 3 entries. -/

def pageS : List Html :=
  [.elem "html" []
    [.elem "a" [("href", "https://site.test/a")] [],
     .elem "a" [("href", "https://site.test/b")] []]]

def pageLeaf : List Html := [.elem "html" [] []]

def fetch1 : String → FetchResult := fun u =>
  if u = "https://site.test" then .response 200 "text/html" pageS
  else if u = "https://site.test/a" then .response 200 "text/html" pageLeaf
  else if u = "https://site.test/b" then .response 200 "text/html" pageLeaf
  else .transportError

def cfg1 : Config :=
  { baseUrl := "https://site.test", maxConcurrency := 1, maxPages := 2, fetch := fetch1 }

def recS : PageRecord :=
  { url := "https://site.test", h1 := "", first_paragraph := ""
    outgoing_links := ["https://site.test/a", "https://site.test/b"], image_urls := [] }

def recA : PageRecord :=
  { url := "https://site.test/a", h1 := "", first_paragraph := ""
    outgoing_links := [], image_urls := [] }

def recB : PageRecord :=
  { url := "https://site.test/b", h1 := "", first_paragraph := ""
    outgoing_links := [], image_urls := [] }

def tRoot (ph : TaskPhase) : CrawlTask :=
  { url := "https://site.test", phase := ph, cancelled := false, inAllTasks := false }

def tA (ph : TaskPhase) : CrawlTask :=
  { url := "https://site.test/a", phase := ph, cancelled := false, inAllTasks := true }

def tB (ph : TaskPhase) : CrawlTask :=
  { url := "https://site.test/b", phase := ph, cancelled := false, inAllTasks := true }

def c1s0 : CrawlState :=
  { page_data := [], should_stop := false, semAvail := 1, tasks := [tRoot .ready] }

def c1s1 : CrawlState :=
  { page_data := [], should_stop := false, semAvail := 1, tasks := [tRoot (.admitted "site.test")] }

def c1s2 : CrawlState :=
  { page_data := [], should_stop := false, semAvail := 0, tasks := [tRoot (.fetching "site.test")] }

def c1s3 : CrawlState :=
  { page_data := [("site.test", recS)], should_stop := false, semAvail := 1
    tasks := [tRoot .done, tA .ready, tB .ready] }

def c1s4 : CrawlState :=
  { page_data := [("site.test", recS)], should_stop := false, semAvail := 1
    tasks := [tRoot .done, tA (.admitted "site.test/a"), tB .ready] }

def c1s5 : CrawlState :=
  { page_data := [("site.test", recS)], should_stop := false, semAvail := 1
    tasks := [tRoot .done, tA (.admitted "site.test/a"), tB (.admitted "site.test/b")] }

def c1s6 : CrawlState :=
  { page_data := [("site.test", recS)], should_stop := false, semAvail := 0
    tasks := [tRoot .done, tA (.fetching "site.test/a"), tB (.admitted "site.test/b")] }

def c1s7 : CrawlState :=
  { page_data := [("site.test", recS), ("site.test/a", recA)], should_stop := false, semAvail := 1
    tasks := [tRoot .done, tA .done, tB (.admitted "site.test/b")] }

def c1s8 : CrawlState :=
  { page_data := [("site.test", recS), ("site.test/a", recA)], should_stop := false, semAvail := 0
    tasks := [tRoot .done, tA .done, tB (.fetching "site.test/b")] }

def c1s9 : CrawlState :=
  { page_data := [("site.test", recS), ("site.test/a", recA), ("site.test/b", recB)]
    should_stop := false, semAvail := 1
    tasks := [tRoot .done, tA .done, tB .done] }

theorem c1step0 : CrawlStep cfg1 c1s0 c1s1 := by
  have h : c1s1 = reserveResult cfg1 c1s0 [] [] (tRoot .ready) := by decide
  rw [h]
  exact .reserve _ [] [] _ rfl rfl

theorem c1step1 : CrawlStep cfg1 c1s1 c1s2 := by
  have h : c1s2 = acquireResult c1s1 [] [] (tRoot (.admitted "site.test")) "site.test" := by decide
  rw [h]
  exact .acquire _ [] [] _ _ rfl rfl (by decide)

theorem c1step2 : CrawlStep cfg1 c1s2 c1s3 := by
  have h : c1s3 = completeFetch cfg1 c1s2 [] [] (tRoot (.fetching "site.test")) "site.test" := by decide
  rw [h]
  exact .fetchDone _ [] [] _ _ rfl rfl

theorem c1step3 : CrawlStep cfg1 c1s3 c1s4 := by
  have h : c1s4 = reserveResult cfg1 c1s3 [tRoot .done] [tB .ready] (tA .ready) := by decide
  rw [h]
  exact .reserve _ [tRoot .done] [tB .ready] _ rfl rfl

theorem c1step4 : CrawlStep cfg1 c1s4 c1s5 := by
  have h : c1s5 = reserveResult cfg1 c1s4 [tRoot .done, tA (.admitted "site.test/a")] [] (tB .ready) := by decide
  rw [h]
  exact .reserve _ [tRoot .done, tA (.admitted "site.test/a")] [] _ rfl rfl

theorem c1step5 : CrawlStep cfg1 c1s5 c1s6 := by
  have h : c1s6 = acquireResult c1s5 [tRoot .done] [tB (.admitted "site.test/b")]
      (tA (.admitted "site.test/a")) "site.test/a" := by decide
  rw [h]
  exact .acquire _ [tRoot .done] [tB (.admitted "site.test/b")] _ _ rfl rfl (by decide)

theorem c1step6 : CrawlStep cfg1 c1s6 c1s7 := by
  have h : c1s7 = completeFetch cfg1 c1s6 [tRoot .done] [tB (.admitted "site.test/b")]
      (tA (.fetching "site.test/a")) "site.test/a" := by decide
  rw [h]
  exact .fetchDone _ [tRoot .done] [tB (.admitted "site.test/b")] _ _ rfl rfl

theorem c1step7 : CrawlStep cfg1 c1s7 c1s8 := by
  have h : c1s8 = acquireResult c1s7 [tRoot .done, tA .done] []
      (tB (.admitted "site.test/b")) "site.test/b" := by decide
  rw [h]
  exact .acquire _ [tRoot .done, tA .done] [] _ _ rfl rfl (by decide)

theorem c1step8 : CrawlStep cfg1 c1s8 c1s9 := by
  have h : c1s9 = completeFetch cfg1 c1s8 [tRoot .done, tA .done] []
      (tB (.fetching "site.test/b")) "site.test/b" := by decide
  rw [h]
  exact .fetchDone _ [tRoot .done, tA .done] [] _ _ rfl rfl

theorem c1reach : Reachable cfg1 (initState cfg1) c1s9 := by
  have h0 : initState cfg1 = c1s0 := by decide
  rw [Reachable, h0]
  exact .tail (.tail (.tail (.tail (.tail (.tail (.tail (.tail (.tail .refl
    c1step0) c1step1) c1step2) c1step3) c1step4) c1step5) c1step6) c1step7) c1step8

/-! ## Auxiliary facts about the ledger and the step functions -/

theorem hasKey_iff (k : String) (m : List (String × PageRecord)) :
    hasKey k m = true ↔ k ∈ m.map Prod.fst := by
  induction m with
  | nil => simp [hasKey]
  | cons e rest ih =>
    simp only [hasKey, List.any_cons, Bool.or_eq_true, beq_iff_eq, List.map_cons,
      List.mem_cons] at ih ⊢
    constructor
    · rintro (h | h)
      · exact Or.inl h.symm
      · exact Or.inr (ih.mp h)
    · rintro (h | h)
      · exact Or.inl h.symm
      · exact Or.inr (ih.mpr h)

/-- An out-of-scope address makes `crawl_page` return at line 134 without
touching any shared state and without spawning anything. -/
theorem reserveResult_out_of_scope (cfg : Config) (s : CrawlState) (l r : List CrawlTask)
    (t : CrawlTask) (h : netlocOf t.url ≠ cfg.base_domain) :
    reserveResult cfg s l r t = { s with tasks := l ++ markDone t :: r } := by
  rw [reserveResult]
  by_cases hs : s.should_stop
  · simp [hs]
  · simp [hs, h]

/-! ## Claim theorems -/

/-- C1 (code_bug): the spec demands that the result mapping (and the
ledger at every intermediate state) never exceed `maxPages`, but the code
violates this: with `max_pages = 2`, `max_concurrency = 1` and a seed
page linking to two leaf pages, the run reaches a quiescent state whose
ledger holds 3 entries — both children pass `add_page_visit` while only
the seed is recorded, and the insertion at lines 150-151 never re-checks
the limit or the stop flag. -/
theorem C1_maxPages_bound_violated :
    Reachable cfg1 (initState cfg1) c1s9 ∧
    cfg1.maxPages = 2 ∧
    c1s9.page_data.length = 3 ∧
    c1s9.tasks.all (fun t => decide (t.phase = .done)) = true :=
  ⟨c1reach, rfl, rfl, by decide⟩

/-- The three possible outcomes of the spec's `tryReserve` contract. -/
inductive ReserveOutcome where
  | admitted
  | alreadyVisited
  | limitReached
deriving DecidableEq

/-- The spec's §4.1 wording of the reservation decision: reject when
stopped, reject an existing key as already visited, flip the stop flag
and reject at the page limit, otherwise admit. -/
def tryReserveSpec (maxPages : Nat) (stopped : Bool) (keys : List String) (key : String) :
    ReserveOutcome :=
  if stopped then .alreadyVisited
  else if key ∈ keys then .alreadyVisited
  else if maxPages ≤ keys.length then .limitReached
  else .admitted

/-- C3 (confirmed): `add_page_visit` implements the spec's three-way
reservation decision: it returns `True` exactly when `tryReserveSpec`
admits; it changes the state only on the limit branch, where it sets the
stop flag and requests cancellation of every not-yet-done task in
`all_tasks`; and it never inserts into the mapping (the ledger is
unchanged on every branch, including admission). -/
theorem C3_add_page_visit_three_way (cfg : Config) (s : CrawlState) (key : String) :
    (add_page_visit cfg s key).1 =
      decide (tryReserveSpec cfg.maxPages s.should_stop (s.page_data.map Prod.fst) key
        = .admitted) ∧
    (add_page_visit cfg s key).2 =
      (if tryReserveSpec cfg.maxPages s.should_stop (s.page_data.map Prod.fst) key
          = .limitReached
       then { s with should_stop := true, tasks := s.tasks.map flagCancel }
       else s) ∧
    (add_page_visit cfg s key).2.page_data = s.page_data ∧
    ∀ t : CrawlTask, (flagCancel t).cancelled =
      (t.cancelled || (t.inAllTasks && !(decide (t.phase = .done)))) := by
  have hk := hasKey_iff key s.page_data
  have hlen : (s.page_data.map Prod.fst).length = s.page_data.length :=
    List.length_map _ _
  have hmain : (add_page_visit cfg s key).1 =
      decide (tryReserveSpec cfg.maxPages s.should_stop (s.page_data.map Prod.fst) key
        = .admitted) ∧
      (add_page_visit cfg s key).2 =
      (if tryReserveSpec cfg.maxPages s.should_stop (s.page_data.map Prod.fst) key
          = .limitReached
       then { s with should_stop := true, tasks := s.tasks.map flagCancel }
       else s) := by
    by_cases h1 : s.should_stop
    · simp [add_page_visit, tryReserveSpec, h1]
    · by_cases h2 : hasKey key s.page_data
      · have h2' : key ∈ s.page_data.map Prod.fst := hk.mp h2
        simp [add_page_visit, tryReserveSpec, h1, h2, h2']
      · have h2' : key ∉ s.page_data.map Prod.fst := fun hc => h2 (hk.mpr hc)
        by_cases h3 : cfg.maxPages ≤ s.page_data.length
        · simp [add_page_visit, tryReserveSpec, h1, h2, h2', hlen, h3]
        · simp [add_page_visit, tryReserveSpec, h1, h2, h2', hlen, h3]
  refine ⟨hmain.1, hmain.2, ?_, ?_⟩
  · rw [hmain.2]
    by_cases h : tryReserveSpec cfg.maxPages s.should_stop (s.page_data.map Prod.fst) key
        = .limitReached
    · simp [h]
    · simp [h]
  · intro t
    rw [flagCancel]
    by_cases h : t.inAllTasks ∧ t.phase ≠ .done
    · simp [h.1, h.2]
    · rcases not_and_or.mp h with h' | h'
      · simp [if_neg h]
        have hb : t.inAllTasks = false := by
          revert h'
          cases t.inAllTasks <;> simp
        simp [hb]
      · have hd : t.phase = .done := not_not.mp h'
        simp [if_neg h, hd]

/-! ### C2: the insertion step and the stop flag -/

def cfg2 : Config :=
  { baseUrl := "https://h.test", maxConcurrency := 1, maxPages := 1,
    fetch := fun _ => .response 200 "text/html" pageLeaf }

def c2t : CrawlTask :=
  { url := "https://h.test", phase := .fetching "h.test", cancelled := false, inAllTasks := false }

/-- A state in which the stop flag is already set while a task's fetch is
in flight (reached e.g. when a sibling reservation hit the page limit). -/
def c2s : CrawlState :=
  { page_data := [], should_stop := true, semAvail := 0, tasks := [c2t] }

def c2rec : PageRecord :=
  { url := "https://h.test", h1 := "", first_paragraph := ""
    outgoing_links := [], image_urls := [] }

def c2sAfter : CrawlState :=
  { page_data := [("h.test", c2rec)], should_stop := true, semAvail := 1
    tasks := [{ c2t with phase := .done }] }

/-- C2 (counterexample): the claim says a record arriving while the
stop flag is set is discarded and the mapping left unchanged.  The code
has no such check: from a state with `should_stop = True` and an empty
mapping, the fetch-completion step still inserts the record (crawl.py
lines 150-151 take the lock but never consult `should_stop`). -/
theorem C2_stop_flag_not_checked_at_insert :
    CrawlStep cfg2 c2s c2sAfter ∧
    c2s.should_stop = true ∧
    c2s.page_data = [] ∧
    c2sAfter.page_data = [("h.test", c2rec)] := by
  refine ⟨?_, rfl, rfl, rfl⟩
  have h : c2sAfter = completeFetch cfg2 c2s [] [] c2t "h.test" := by decide
  rw [h]
  exact .fetchDone _ [] [] _ _ rfl rfl

/-- C2 (amended): the insertion step is unconditional — whenever the
fetch yields a body, the extracted record is stored under the normalized
key regardless of the stop flag; the flag only suppresses the subsequent
fan-out. -/
theorem C2_insert_unconditional (cfg : Config) (s : CrawlState) (l r : List CrawlTask)
    (t : CrawlTask) (key : String) (html : List Html)
    (hf : get_html (cfg.fetch t.url) = some html) :
    (completeFetch cfg s l r t key).page_data =
      dictInsert key (extract_page_data html t.url) s.page_data := by
  rw [completeFetch, hf]
  by_cases h : s.should_stop <;> simp [h]

theorem C2_insert_unconditional_witness :
    (completeFetch cfg2 c2s [] [] c2t "h.test").page_data = [("h.test", c2rec)] :=
  (C2_insert_unconditional cfg2 c2s [] [] c2t "h.test" pageLeaf rfl).trans (by decide)

/-! ### C7: unusable pages are skipped, not fatal -/

/-- C7 (confirmed): `get_html` yields no body for a status of 400 or
more, for a content type not containing `"text/html"`, and for a
transport error; and when `get_html` yields no body the traversal unit
just terminates — the ledger, the stop flag and every other task are
untouched, the semaphore slot is released, and nothing is spawned. -/
theorem C7_unusable_page_skipped :
    (∀ status ct body, 400 ≤ status →
        get_html (.response status ct body) = none) ∧
    (∀ status ct body, containsSeq ct.data "text/html".data = false →
        get_html (.response status ct body) = none) ∧
    get_html .transportError = none ∧
    (∀ cfg s l r t key, get_html (cfg.fetch t.url) = none →
        completeFetch cfg s l r t key =
          { s with semAvail := s.semAvail + 1, tasks := l ++ markDone t :: r }) := by
  refine ⟨?_, ?_, rfl, ?_⟩
  · intro status ct body h
    rw [get_html, if_pos (by omega)]
  · intro status ct body h
    rw [get_html]
    by_cases hs : 399 < status
    · rw [if_pos hs]
    · rw [if_neg hs, h]
      simp
  · intro cfg s l r t key h
    rw [completeFetch, h]

def cfg7 : Config :=
  { baseUrl := "https://h.test", maxConcurrency := 1, maxPages := 5,
    fetch := fun _ => .transportError }

def c7s : CrawlState :=
  { page_data := [], should_stop := false, semAvail := 0, tasks := [c2t] }

theorem C7_unusable_page_skipped_witness :
    get_html (.response 404 "text/html" []) = none ∧
    get_html (.response 200 "text/plain; charset=utf-8" []) = none ∧
    completeFetch cfg7 c7s [] [] c2t "h.test" =
      { page_data := [], should_stop := false, semAvail := 1
        tasks := [{ c2t with phase := .done }] } :=
  ⟨C7_unusable_page_skipped.1 404 "text/html" [] (by omega),
   C7_unusable_page_skipped.2.1 200 "text/plain; charset=utf-8" [] (by decide),
   (C7_unusable_page_skipped.2.2.2 cfg7 c7s [] [] c2t "h.test" rfl).trans (by decide)⟩

/-! ### C5: fan-out links are resolved against the seed, stored links
against the page -/

/-- A page whose single anchor holds the relative reference `p`. -/
def pageRel : List Html := [.elem "a" [("href", "p")] []]

/-- C5 (confirmed): on a successful fetch the spawned children come
from `get_urls_from_html html cfg.baseUrl` (crawl.py line 153 passes
`self.base_url`), while the stored record's `outgoing_links` is
`get_urls_from_html html page_url` (line 69 resolves against the page's
own address); for a page with a relative link whose address differs from
the seed the two resolutions differ. -/
theorem C5_fanout_resolved_against_seed :
    (∀ cfg s l r t key html, get_html (cfg.fetch t.url) = some html →
        s.should_stop = false →
        completeFetch cfg s l r t key =
          { s with
            page_data := dictInsert key (extract_page_data html t.url) s.page_data,
            semAvail := s.semAvail + 1,
            tasks := (l ++ markDone t :: r)
              ++ (get_urls_from_html html cfg.baseUrl).map spawnTask }) ∧
    (∀ html page_url,
        (extract_page_data html page_url).outgoing_links = get_urls_from_html html page_url) ∧
    get_urls_from_html pageRel "https://site.test"
      ≠ get_urls_from_html pageRel "https://site.test/sub/" := by
  refine ⟨?_, fun _ _ => rfl, by decide⟩
  intro cfg s l r t key html hf hstop
  rw [completeFetch, hf]
  simp [hstop]

theorem C5_fanout_resolved_against_seed_witness :
    completeFetch cfg1 c1s2 [] [] (tRoot (.fetching "site.test")) "site.test" = c1s3 ∧
    get_urls_from_html pageRel "https://site.test" = ["https://site.test/p"] ∧
    get_urls_from_html pageRel "https://site.test/sub/" = ["https://site.test/sub/p"] :=
  ⟨(C5_fanout_resolved_against_seed.1 cfg1 c1s2 [] [] (tRoot (.fetching "site.test"))
      "site.test" pageS rfl rfl).trans (by decide),
   by decide, by decide⟩

/-! ### C10: the scope check is case-sensitive even though normalization
lowercases hosts -/

/-- C10 (confirmed): `crawl_page` compares `urlparse(url).netloc`
against `self.base_domain` with plain string equality (lines 132-133), so
an address whose host differs from the seed's only in case is pruned as
out-of-domain — even though `normalize_url` lowercases and would give
both the same dedup key. -/
theorem C10_scope_check_case_sensitive :
    netlocOf "https://BLOG.boot.dev/path" ≠ netlocOf "https://blog.boot.dev" ∧
    normalize_url "https://BLOG.boot.dev/path" = normalize_url "https://blog.boot.dev/path" ∧
    (∀ cfg s l r t, netlocOf t.url ≠ netlocOf cfg.baseUrl →
        reserveResult cfg s l r t = { s with tasks := l ++ markDone t :: r }) :=
  ⟨by decide, by decide, fun cfg s l r t h => reserveResult_out_of_scope cfg s l r t h⟩

def cfg10 : Config :=
  { baseUrl := "https://blog.boot.dev", maxConcurrency := 2, maxPages := 5,
    fetch := fun _ => .transportError }

def t10 : CrawlTask :=
  { url := "https://BLOG.boot.dev/path", phase := .ready, cancelled := false, inAllTasks := true }

def s10 : CrawlState :=
  { page_data := [], should_stop := false, semAvail := 2, tasks := [t10] }

theorem C10_scope_check_case_sensitive_witness :
    reserveResult cfg10 s10 [] [] t10 =
      { page_data := [], should_stop := false, semAvail := 2
        tasks := [{ t10 with phase := .done }] } :=
  (C10_scope_check_case_sensitive.2.2 cfg10 s10 [] [] t10 (by decide)).trans (by decide)

theorem C3_add_page_visit_three_way_witness :
    (add_page_visit cfg1 c1s9 "site.test/c").1 = false ∧
    (add_page_visit cfg1 c1s9 "site.test/c").2.should_stop = true := by
  have h := C3_add_page_visit_three_way cfg1 c1s9 "site.test/c"
  refine ⟨?_, ?_⟩
  · rw [h.1]
    decide
  · rw [h.2.1]
    decide

/-! ### C6: dedup and same-host invariants of the ledger -/

theorem mem_keys_dictInsert (k : String) (v : PageRecord) (m : List (String × PageRecord))
    (a : String) :
    a ∈ (dictInsert k v m).map Prod.fst ↔ a ∈ m.map Prod.fst ∨ a = k := by
  induction m with
  | nil => simp [dictInsert]
  | cons e rest ih =>
    by_cases h : e.1 = k
    · rw [dictInsert, if_pos h]
      simp [h]
      tauto
    · rw [dictInsert, if_neg h]
      simp [ih]
      tauto

theorem nodup_keys_dictInsert (k : String) (v : PageRecord) (m : List (String × PageRecord))
    (h : (m.map Prod.fst).Nodup) :
    ((dictInsert k v m).map Prod.fst).Nodup := by
  induction m with
  | nil => simp [dictInsert]
  | cons e rest ih =>
    rw [List.map_cons, List.nodup_cons] at h
    by_cases hek : e.1 = k
    · rw [dictInsert, if_pos hek]
      rw [List.map_cons, List.nodup_cons]
      exact ⟨hek ▸ h.1, h.2⟩
    · rw [dictInsert, if_neg hek]
      rw [List.map_cons, List.nodup_cons]
      refine ⟨?_, ih h.2⟩
      intro hc
      rcases (mem_keys_dictInsert k v rest e.1).mp hc with hc | hc
      · exact h.1 hc
      · exact hek hc

theorem mem_dictInsert (k : String) (v : PageRecord) (m : List (String × PageRecord))
    (e : String × PageRecord) (he : e ∈ dictInsert k v m) : e ∈ m ∨ e = (k, v) := by
  induction m with
  | nil => simp [dictInsert] at he; simp [he]
  | cons x rest ih =>
    by_cases h : x.1 = k
    · rw [dictInsert, if_pos h] at he
      rcases List.mem_cons.mp he with rfl | he
      · exact Or.inr rfl
      · exact Or.inl (List.mem_cons_of_mem _ he)
    · rw [dictInsert, if_neg h] at he
      rcases List.mem_cons.mp he with rfl | he
      · exact Or.inl (List.mem_cons_self _ _)
      · rcases ih he with h' | h'
        · exact Or.inl (List.mem_cons_of_mem _ h')
        · exact Or.inr h'

/-- A task in phase `admitted` or `fetching` passed the scope check at
line 133, so its address is on the seed's host. -/
def inScopeTask (cfg : Config) (t : CrawlTask) : Prop :=
  ∀ key, t.phase = .admitted key ∨ t.phase = .fetching key →
    netlocOf t.url = cfg.base_domain

/-- Strengthened invariant for C6: ledger keys are duplicate-free, every
recorded page was fetched from the seed's host, and every admitted or
fetching task is on the seed's host. -/
def ScopeInv (cfg : Config) (s : CrawlState) : Prop :=
  (s.page_data.map Prod.fst).Nodup ∧
  (∀ e ∈ s.page_data, netlocOf e.2.url = cfg.base_domain) ∧
  (∀ t ∈ s.tasks, inScopeTask cfg t)

theorem inScopeTask_ready (cfg : Config) (t : CrawlTask) (h : t.phase = .ready) :
    inScopeTask cfg t := by
  intro key hk
  rw [h] at hk
  rcases hk with hk | hk <;> exact absurd hk (by simp)

theorem inScopeTask_markDone (cfg : Config) (t : CrawlTask) :
    inScopeTask cfg (markDone t) := by
  intro key hk
  rcases hk with hk | hk <;> exact absurd hk (by simp [markDone])

theorem flagCancel_phase (t : CrawlTask) : (flagCancel t).phase = t.phase := by
  rw [flagCancel]
  by_cases h : t.inAllTasks ∧ t.phase ≠ .done <;> simp [h]

theorem flagCancel_url (t : CrawlTask) : (flagCancel t).url = t.url := by
  rw [flagCancel]
  by_cases h : t.inAllTasks ∧ t.phase ≠ .done <;> simp [h]

theorem inScopeTask_flagCancel (cfg : Config) (t : CrawlTask) (h : inScopeTask cfg t) :
    inScopeTask cfg (flagCancel t) := by
  intro key hk
  rw [flagCancel_phase] at hk
  rw [flagCancel_url]
  exact h key hk

theorem tasksInv_update {cfg : Config} {l r : List CrawlTask} {t t' : CrawlTask}
    (h : ∀ u ∈ l ++ t :: r, inScopeTask cfg u) (ht' : inScopeTask cfg t') :
    ∀ u ∈ l ++ t' :: r, inScopeTask cfg u := by
  intro u hu
  rcases List.mem_append.mp hu with hu | hu
  · exact h u (List.mem_append.mpr (Or.inl hu))
  · rcases List.mem_cons.mp hu with rfl | hu
    · exact ht'
    · exact h u (List.mem_append.mpr (Or.inr (List.mem_cons_of_mem _ hu)))

theorem tasksInv_cancelAll {cfg : Config} {l r : List CrawlTask} {t : CrawlTask}
    (h : ∀ u ∈ l ++ t :: r, inScopeTask cfg u) :
    ∀ u ∈ l.map flagCancel ++ markDone (flagCancel t) :: r.map flagCancel,
      inScopeTask cfg u := by
  intro u hu
  rcases List.mem_append.mp hu with hu | hu
  · obtain ⟨v, hv, rfl⟩ := List.mem_map.mp hu
    exact inScopeTask_flagCancel _ _ (h v (List.mem_append.mpr (Or.inl hv)))
  · rcases List.mem_cons.mp hu with rfl | hu
    · exact inScopeTask_markDone _ _
    · obtain ⟨v, hv, rfl⟩ := List.mem_map.mp hu
      exact inScopeTask_flagCancel _ _
        (h v (List.mem_append.mpr (Or.inr (List.mem_cons_of_mem _ hv))))

theorem scopeInv_init (cfg : Config) : ScopeInv cfg (initState cfg) := by
  refine ⟨by simp [initState], by simp [initState], ?_⟩
  intro t ht
  rw [initState] at ht
  rcases List.mem_cons.mp ht with rfl | ht
  · exact inScopeTask_ready cfg _ rfl
  · exact absurd ht (List.not_mem_nil _)

theorem scopeInv_step {cfg : Config} {s s' : CrawlState}
    (hstep : CrawlStep cfg s s') (hinv : ScopeInv cfg s) : ScopeInv cfg s' := by
  obtain ⟨hnodup, hentries, htasks⟩ := hinv
  cases hstep with
  | reserve l r t hts hph =>
    rw [hts] at htasks
    rw [reserveResult]
    by_cases h1 : s.should_stop
    · rw [if_pos h1]
      exact ⟨hnodup, hentries, tasksInv_update htasks (inScopeTask_markDone _ _)⟩
    · rw [if_neg h1]
      by_cases h2 : netlocOf t.url ≠ cfg.base_domain
      · rw [if_pos h2]
        exact ⟨hnodup, hentries, tasksInv_update htasks (inScopeTask_markDone _ _)⟩
      · rw [if_neg h2]
        by_cases h3 : hasKey (normalize_url t.url) s.page_data
        · rw [if_pos h3]
          exact ⟨hnodup, hentries, tasksInv_update htasks (inScopeTask_markDone _ _)⟩
        · rw [if_neg h3]
          by_cases h4 : cfg.maxPages ≤ s.page_data.length
          · rw [if_pos h4]
            exact ⟨hnodup, hentries, tasksInv_cancelAll htasks⟩
          · rw [if_neg h4]
            refine ⟨hnodup, hentries, tasksInv_update htasks ?_⟩
            intro key hk
            exact not_not.mp h2
  | acquire l r t key hts hph hsem =>
    rw [hts] at htasks
    rw [acquireResult]
    refine ⟨hnodup, hentries, tasksInv_update htasks ?_⟩
    intro key' hk'
    exact htasks t (List.mem_append.mpr (Or.inr (List.mem_cons_self _ _))) key
      (Or.inl hph)
  | fetchDone l r t key hts hph =>
    rw [hts] at htasks
    have htnet : netlocOf t.url = cfg.base_domain :=
      htasks t (List.mem_append.mpr (Or.inr (List.mem_cons_self _ _))) key (Or.inr hph)
    rcases hget : get_html (cfg.fetch t.url) with _ | html
    · rw [completeFetch, hget]
      exact ⟨hnodup, hentries, tasksInv_update htasks (inScopeTask_markDone _ _)⟩
    · rw [completeFetch, hget]
      dsimp only
      have hpd : ∀ e ∈ dictInsert key (extract_page_data html t.url) s.page_data,
          netlocOf e.2.url = cfg.base_domain := by
        intro e he
        rcases mem_dictInsert _ _ _ _ he with he | he
        · exact hentries e he
        · rw [he]
          exact htnet
      have hnd := nodup_keys_dictInsert key (extract_page_data html t.url) _ hnodup
      by_cases hstop : s.should_stop
      · rw [if_pos hstop]
        exact ⟨hnd, hpd, tasksInv_update htasks (inScopeTask_markDone _ _)⟩
      · rw [if_neg hstop]
        refine ⟨hnd, hpd, ?_⟩
        intro u hu
        rcases List.mem_append.mp hu with hu | hu
        · exact tasksInv_update htasks (inScopeTask_markDone _ _) u hu
        · obtain ⟨v, _, rfl⟩ := List.mem_map.mp hu
          exact inScopeTask_ready cfg _ rfl
  | cancelled l r t hts hc hph =>
    rw [hts] at htasks
    rw [cancelResult]
    exact ⟨hnodup, hentries, tasksInv_update htasks (inScopeTask_markDone _ _)⟩

theorem scopeInv_reachable (cfg : Config) (s : CrawlState)
    (h : Reachable cfg (initState cfg) s) : ScopeInv cfg s := by
  induction h with
  | refl => exact scopeInv_init cfg
  | tail _ hstep ih => exact scopeInv_step hstep ih

/-- C6 (confirmed): in every reachable crawl state the ledger's keys
are duplicate-free, every recorded page was fetched from an address on
the seed's host, and a traversal unit whose address is on a different
host terminates at the scope check without touching the ledger, the stop
flag or the semaphore and without spawning anything. -/
theorem C6_dedup_and_same_host :
    (∀ cfg s, Reachable cfg (initState cfg) s →
        (s.page_data.map Prod.fst).Nodup ∧
        ∀ e ∈ s.page_data, netlocOf e.2.url = netlocOf cfg.baseUrl) ∧
    (∀ cfg s l r t, netlocOf t.url ≠ netlocOf cfg.baseUrl →
        reserveResult cfg s l r t = { s with tasks := l ++ markDone t :: r }) := by
  constructor
  · intro cfg s h
    obtain ⟨h1, h2, _⟩ := scopeInv_reachable cfg s h
    exact ⟨h1, h2⟩
  · intro cfg s l r t h
    exact reserveResult_out_of_scope cfg s l r t h

theorem C6_dedup_and_same_host_witness :
    ((c1s9.page_data.map Prod.fst).Nodup ∧
      ∀ e ∈ c1s9.page_data, netlocOf e.2.url = netlocOf cfg1.baseUrl) ∧
    reserveResult cfg10 s10 [] [] t10 =
      { s10 with tasks := [] ++ markDone t10 :: [] } :=
  ⟨C6_dedup_and_same_host.1 cfg1 c1s9 c1reach,
   C6_dedup_and_same_host.2 cfg10 s10 [] [] t10 (by decide)⟩

/-! ### C4: the semaphore bounds concurrent fetches -/

/-- Number of fetches currently in flight: tasks inside the
`async with self.semaphore` block awaiting `get_html`. -/
def fetchCount (ts : List CrawlTask) : Nat :=
  ts.countP (fun t => isFetching t.phase)

theorem fetchCount_split (l r : List CrawlTask) (x : CrawlTask) :
    fetchCount (l ++ x :: r) = fetchCount l + fetchCount r + fetchCount [x] := by
  simp only [fetchCount, List.countP_append, List.countP_cons, List.countP_nil]
  omega

theorem fetchCount_map_flagCancel (ts : List CrawlTask) :
    fetchCount (ts.map flagCancel) = fetchCount ts := by
  rw [fetchCount, fetchCount, List.countP_map]
  apply List.countP_congr
  intro t _
  simp [Function.comp, flagCancel_phase]

theorem fetchCount_spawn (us : List String) : fetchCount (us.map spawnTask) = 0 := by
  induction us with
  | nil => rfl
  | cons u rest ih =>
    simp only [List.map_cons, fetchCount, List.countP_cons] at ih ⊢
    simp [spawnTask, isFetching, ih]

theorem fetchCount_single_ready (x : CrawlTask) (h : x.phase = .ready) :
    fetchCount [x] = 0 := by
  simp [fetchCount, List.countP_cons, isFetching, h]

theorem fetchCount_single_admitted (x : CrawlTask) (key : String)
    (h : x.phase = .admitted key) : fetchCount [x] = 0 := by
  simp [fetchCount, List.countP_cons, isFetching, h]

theorem fetchCount_single_fetching (x : CrawlTask) (key : String)
    (h : x.phase = .fetching key) : fetchCount [x] = 1 := by
  simp [fetchCount, List.countP_cons, isFetching, h]

theorem fetchCount_single_done (x : CrawlTask) (h : x.phase = .done) :
    fetchCount [x] = 0 := by
  simp [fetchCount, List.countP_cons, isFetching, h]

theorem fetchCount_single_markDone (x : CrawlTask) : fetchCount [markDone x] = 0 :=
  fetchCount_single_done _ rfl

/-- Per-branch bookkeeping of `reserveResult`: the task list length, the
number of in-flight fetches and the free-slot count are all unchanged. -/
theorem reserveResult_stats (cfg : Config) (s : CrawlState) (l r : List CrawlTask)
    (t : CrawlTask) (hph : t.phase = .ready) :
    (reserveResult cfg s l r t).tasks.length = (l ++ t :: r).length ∧
    fetchCount (reserveResult cfg s l r t).tasks = fetchCount (l ++ t :: r) ∧
    (reserveResult cfg s l r t).semAvail = s.semAvail ∧
    (reserveResult cfg s l r t).page_data = s.page_data := by
  have ht0 : fetchCount [t] = 0 := fetchCount_single_ready t hph
  rw [reserveResult]
  by_cases h1 : s.should_stop
  · rw [if_pos h1]
    refine ⟨by simp, ?_, rfl, rfl⟩
    rw [fetchCount_split, fetchCount_split, ht0, fetchCount_single_markDone]
  · rw [if_neg h1]
    by_cases h2 : netlocOf t.url ≠ cfg.base_domain
    · rw [if_pos h2]
      refine ⟨by simp, ?_, rfl, rfl⟩
      rw [fetchCount_split, fetchCount_split, ht0, fetchCount_single_markDone]
    · rw [if_neg h2]
      by_cases h3 : hasKey (normalize_url t.url) s.page_data
      · rw [if_pos h3]
        refine ⟨by simp, ?_, rfl, rfl⟩
        rw [fetchCount_split, fetchCount_split, ht0, fetchCount_single_markDone]
      · rw [if_neg h3]
        by_cases h4 : cfg.maxPages ≤ s.page_data.length
        · rw [if_pos h4]
          refine ⟨by simp, ?_, rfl, rfl⟩
          rw [fetchCount_split, fetchCount_split, ht0, fetchCount_map_flagCancel,
            fetchCount_map_flagCancel, fetchCount_single_markDone]
        · rw [if_neg h4]
          refine ⟨by simp, ?_, rfl, rfl⟩
          rw [fetchCount_split, fetchCount_split, ht0, fetchCount_single_admitted _ _ rfl]

/-- `acquire` takes one free slot and starts one fetch. -/
theorem acquireResult_stats (s : CrawlState) (l r : List CrawlTask) (t : CrawlTask)
    (key : String) (hph : t.phase = .admitted key) :
    (acquireResult s l r t key).tasks.length = (l ++ t :: r).length ∧
    fetchCount (acquireResult s l r t key).tasks = fetchCount (l ++ t :: r) + 1 ∧
    (acquireResult s l r t key).semAvail = s.semAvail - 1 := by
  refine ⟨by simp [acquireResult], ?_, rfl⟩
  rw [acquireResult]
  dsimp only
  rw [fetchCount_split, fetchCount_split, fetchCount_single_admitted t key hph,
    fetchCount_single_fetching _ key rfl]

/-- Every branch of `completeFetch` releases the slot and ends the fetch;
only the successful non-stopped branch spawns (ready, slot-free)
children. -/
theorem completeFetch_stats (cfg : Config) (s : CrawlState) (l r : List CrawlTask)
    (t : CrawlTask) (key' : String) (hph : t.phase = .fetching key') :
    (completeFetch cfg s l r t key').semAvail = s.semAvail + 1 ∧
    fetchCount (completeFetch cfg s l r t key').tasks + 1 = fetchCount (l ++ t :: r) := by
  have hsplit : fetchCount (l ++ t :: r) =
      fetchCount l + fetchCount r + 1 := by
    rw [fetchCount_split, fetchCount_single_fetching t key' hph]
  have hdone : fetchCount (l ++ markDone t :: r) = fetchCount l + fetchCount r := by
    rw [fetchCount_split, fetchCount_single_markDone]
    omega
  rcases hget : get_html (cfg.fetch t.url) with _ | html
  · rw [completeFetch, hget]
    exact ⟨rfl, by rw [hdone, hsplit]⟩
  · rw [completeFetch, hget]
    dsimp only
    by_cases hstop : s.should_stop
    · rw [if_pos hstop]
      exact ⟨rfl, by rw [hdone, hsplit]⟩
    · rw [if_neg hstop]
      refine ⟨rfl, ?_⟩
      show fetchCount ((l ++ markDone t :: r) ++ _) + 1 = _
      rw [fetchCount, List.countP_append, ← fetchCount, ← fetchCount, fetchCount_spawn,
        hdone, hsplit]

/-- Cancellation ends at most one fetch and returns its slot. -/
theorem cancelResult_stats (s : CrawlState) (l r : List CrawlTask) (t : CrawlTask) :
    (cancelResult s l r t).tasks.length = (l ++ t :: r).length ∧
    fetchCount (cancelResult s l r t).tasks + fetchCount [t] = fetchCount (l ++ t :: r) ∧
    (cancelResult s l r t).semAvail = s.semAvail + (if isFetching t.phase then 1 else 0) ∧
    fetchCount [t] = (if isFetching t.phase then 1 else 0) := by
  refine ⟨by simp [cancelResult], ?_, ?_, ?_⟩
  · rw [cancelResult]
    dsimp only
    rw [fetchCount_split, fetchCount_split, fetchCount_single_markDone]
    omega
  · rw [cancelResult]
    by_cases h : isFetching t.phase <;> simp [h]
  · simp [fetchCount, List.countP_cons]

/-- Invariant: free slots plus in-flight fetches equal the semaphore's
capacity `max_concurrency`. -/
def SemInv (cfg : Config) (s : CrawlState) : Prop :=
  s.semAvail + fetchCount s.tasks = cfg.maxConcurrency

theorem semInv_init (cfg : Config) : SemInv cfg (initState cfg) := by
  rw [SemInv, initState]
  dsimp only
  rw [fetchCount_single_ready _ rfl]
  omega

theorem semInv_step {cfg : Config} {s s' : CrawlState}
    (hstep : CrawlStep cfg s s') (hinv : SemInv cfg s) : SemInv cfg s' := by
  rw [SemInv] at hinv ⊢
  cases hstep with
  | reserve l r t hts hph =>
    obtain ⟨_, hc, hs, _⟩ := reserveResult_stats cfg s l r t hph
    rw [hc, hs, ← hts]
    exact hinv
  | acquire l r t key hts hph hsem =>
    obtain ⟨_, hc, hs⟩ := acquireResult_stats s l r t key hph
    rw [hc, hs, ← hts] at *
    omega
  | fetchDone l r t key hts hph =>
    obtain ⟨hs, hc⟩ := completeFetch_stats cfg s l r t key hph
    rw [← hts] at hc
    omega
  | cancelled l r t hts hc hph =>
    obtain ⟨_, hcnt, hs, hone⟩ := cancelResult_stats s l r t
    rw [← hts] at hcnt
    rw [hs]
    omega

theorem semInv_reachable (cfg : Config) (s : CrawlState)
    (h : Reachable cfg (initState cfg) s) : SemInv cfg s := by
  induction h with
  | refl => exact semInv_init cfg
  | tail _ hstep ih => exact semInv_step hstep ih

/-- C4 (confirmed): in every reachable state at most `maxConcurrency`
fetches are in flight; a step that spawns child tasks also returns the
parent's semaphore slot and ends its fetch (the slot is released before
fan-out, crawl.py line 153 is still inside the `async with` block but
lines 158-162 are not); and the number of in-flight fetches only grows
when a free slot is taken (the slot is acquired before the fetch,
line 142). -/
theorem C4_concurrency_bound :
    (∀ cfg s, Reachable cfg (initState cfg) s →
        fetchCount s.tasks ≤ cfg.maxConcurrency) ∧
    (∀ cfg s s', CrawlStep cfg s s' → s.tasks.length < s'.tasks.length →
        s'.semAvail = s.semAvail + 1 ∧ fetchCount s'.tasks + 1 = fetchCount s.tasks) ∧
    (∀ cfg s s', CrawlStep cfg s s' → fetchCount s.tasks < fetchCount s'.tasks →
        s.semAvail = s'.semAvail + 1 ∧ 0 < s.semAvail) := by
  refine ⟨?_, ?_, ?_⟩
  · intro cfg s h
    have := semInv_reachable cfg s h
    rw [SemInv] at this
    omega
  · intro cfg s s' hstep hlen
    cases hstep with
    | reserve l r t hts hph =>
      obtain ⟨hl, _, _, _⟩ := reserveResult_stats cfg s l r t hph
      rw [← hts] at hl
      omega
    | acquire l r t key hts hph hsem =>
      obtain ⟨hl, _, _⟩ := acquireResult_stats s l r t key hph
      rw [← hts] at hl
      omega
    | fetchDone l r t key hts hph =>
      obtain ⟨hs, hc⟩ := completeFetch_stats cfg s l r t key hph
      rw [← hts] at hc
      exact ⟨hs, hc⟩
    | cancelled l r t hts hc hph =>
      obtain ⟨hl, _, _, _⟩ := cancelResult_stats s l r t
      rw [← hts] at hl
      omega
  · intro cfg s s' hstep hcnt
    cases hstep with
    | reserve l r t hts hph =>
      obtain ⟨_, hc, _, _⟩ := reserveResult_stats cfg s l r t hph
      rw [← hts] at hc
      omega
    | acquire l r t key hts hph hsem =>
      obtain ⟨_, _, hs⟩ := acquireResult_stats s l r t key hph
      refine ⟨?_, hsem⟩
      rw [hs]
      omega
    | fetchDone l r t key hts hph =>
      obtain ⟨_, hcs⟩ := completeFetch_stats cfg s l r t key hph
      rw [← hts] at hcs
      omega
    | cancelled l r t hts hc hph =>
      obtain ⟨_, hcs, _, _⟩ := cancelResult_stats s l r t
      rw [← hts] at hcs
      omega

theorem C4_concurrency_bound_witness :
    fetchCount c1s9.tasks ≤ cfg1.maxConcurrency ∧
    (c1s3.semAvail = c1s2.semAvail + 1 ∧ fetchCount c1s3.tasks + 1 = fetchCount c1s2.tasks) ∧
    (c1s1.semAvail = c1s2.semAvail + 1 ∧ 0 < c1s1.semAvail) :=
  ⟨C4_concurrency_bound.1 cfg1 c1s9 c1reach,
   C4_concurrency_bound.2.1 cfg1 c1s2 c1s3 c1step2 (by decide),
   C4_concurrency_bound.2.2 cfg1 c1s1 c1s2 c1step1 (by decide)⟩

/-! ### C9: which paragraph `get_first_paragraph_from_html` picks -/

/-- Is this node an element with the given tag? -/
def isTag (tag : String) : Html → Bool
  | .elem t _ _ => t == tag
  | .text _ => false

mutual

/-- All nodes of a subtree in document (pre-order) order. -/
def preorderNode : Html → List Html
  | .text s => [.text s]
  | .elem t a ch => .elem t a ch :: preorderList ch

def preorderList : List Html → List Html
  | [] => []
  | n :: ns => preorderNode n ++ preorderList ns

end

mutual

/-- `find` returns the first matching node in document order. -/
theorem findTagNode_eq (tag : String) (n : Html) :
    findTagNode tag n = (preorderNode n).find? (isTag tag) := by
  cases n with
  | text s => simp [findTagNode, preorderNode, isTag]
  | elem t a ch =>
    by_cases h : t = tag
    · rw [findTagNode, if_pos h, preorderNode,
        List.find?_cons_of_pos _ (by simp [isTag, h])]
    · rw [findTagNode, if_neg h, preorderNode,
        List.find?_cons_of_neg _ (by simp [isTag, h]), findTagList_eq tag ch]

theorem findTagList_eq (tag : String) (ns : List Html) :
    findTagList tag ns = (preorderList ns).find? (isTag tag) := by
  cases ns with
  | nil => simp [findTagList, preorderList]
  | cons n rest =>
    rw [findTagList, preorderList, List.find?_append, findTagNode_eq tag n,
      findTagList_eq tag rest]
    cases (preorderNode n).find? (isTag tag) with
    | none => simp
    | some x => simp

end

mutual

theorem mem_preorderNode_trans {x y : Html} {n : Html}
    (hx : x ∈ preorderNode n) (hy : y ∈ preorderNode x) : y ∈ preorderNode n := by
  cases n with
  | text s =>
    rw [preorderNode] at hx
    rcases List.mem_cons.mp hx with rfl | hx
    · exact hy
    · exact absurd hx (List.not_mem_nil _)
  | elem t a ch =>
    rw [preorderNode] at hx ⊢
    rcases List.mem_cons.mp hx with rfl | hx
    · exact hy
    · exact List.mem_cons_of_mem _ (mem_preorderList_trans hx hy)

theorem mem_preorderList_trans {x y : Html} {ns : List Html}
    (hx : x ∈ preorderList ns) (hy : y ∈ preorderNode x) : y ∈ preorderList ns := by
  cases ns with
  | nil =>
    rw [preorderList] at hx
    exact absurd hx (List.not_mem_nil _)
  | cons n rest =>
    rw [preorderList] at hx ⊢
    rcases List.mem_append.mp hx with h | h
    · exact List.mem_append.mpr (Or.inl (mem_preorderNode_trans h hy))
    · exact List.mem_append.mpr (Or.inr (mem_preorderList_trans h hy))

end

theorem children_preorder_subset (m : Html) :
    ∀ x ∈ preorderList (childrenOf m), x ∈ preorderNode m := by
  cases m with
  | text s => intro x hx; rw [childrenOf, preorderList] at hx; exact absurd hx (List.not_mem_nil _)
  | elem t a ch => intro x hx; rw [preorderNode]; exact List.mem_cons_of_mem _ hx

/-- C9 (confirmed): `get_first_paragraph_from_html` returns the text
of the document-order-first `<p>` among the descendants of `<main>` when
a `<main>` element exists (even if a `<p>` outside `<main>` precedes it
in document order), the document-order-first `<p>` of the whole document
when no `<main>` exists, and `""` when the relevant search finds no
paragraph — in particular `""` whenever the document has no `<p>` at
all. -/
theorem C9_first_paragraph_selection (html : List Html) :
    (∀ m, findTagList "main" html = some m →
        get_first_paragraph_from_html html =
          (match (preorderList (childrenOf m)).find? (isTag "p") with
           | some p => getTextStrip p
           | none => "")) ∧
    (findTagList "main" html = none →
        get_first_paragraph_from_html html =
          (match (preorderList html).find? (isTag "p") with
           | some p => getTextStrip p
           | none => "")) ∧
    ((preorderList html).find? (isTag "p") = none →
        get_first_paragraph_from_html html = "") := by
  refine ⟨?_, ?_, ?_⟩
  · intro m hm
    rw [get_first_paragraph_from_html, hm]
    dsimp only
    rw [findTagList_eq]
  · intro hm
    rw [get_first_paragraph_from_html, hm]
    dsimp only
    rw [findTagList_eq]
  · intro hnone
    have hall := List.find?_eq_none.mp hnone
    rw [get_first_paragraph_from_html]
    cases hm : findTagList "main" html with
    | none =>
      dsimp only
      rw [findTagList_eq, hnone]
    | some m =>
      have hmem : m ∈ preorderList html :=
        List.mem_of_find?_eq_some (findTagList_eq "main" html ▸ hm)
      have hnop : findTagList "p" (childrenOf m) = none := by
        rw [findTagList_eq]
        apply List.find?_eq_none.mpr
        intro x hx
        exact hall x (mem_preorderList_trans hmem (children_preorder_subset m x hx))
      dsimp only
      rw [hnop]

def docMainScenario : List Html :=
  [.elem "html" []
    [.elem "body" []
      [.elem "p" [] [.text "Outside paragraph."],
       .elem "main" [] [.elem "p" [] [.text "Main paragraph."]]]]]

def docNoMainScenario : List Html :=
  [.elem "html" []
    [.elem "body" []
      [.elem "h1" [] [.text "Test Title"],
       .elem "p" [] [.text "Body."]]]]

def docNoParagraph : List Html :=
  [.elem "html" [] [.elem "body" [] [.elem "h1" [] [.text "No paragraphs here"]]]]

theorem C9_first_paragraph_selection_witness :
    get_first_paragraph_from_html docMainScenario = "Main paragraph." ∧
    get_first_paragraph_from_html docNoMainScenario = "Body." ∧
    get_h1_from_html docNoMainScenario = "Test Title" ∧
    get_first_paragraph_from_html docNoParagraph = "" :=
  ⟨((C9_first_paragraph_selection docMainScenario).1
      (.elem "main" [] [.elem "p" [] [.text "Main paragraph."]]) rfl).trans (by decide),
   ((C9_first_paragraph_selection docNoMainScenario).2.1 rfl).trans (by decide),
   by decide,
   (C9_first_paragraph_selection docNoParagraph).2.2 rfl⟩

/-! ### C8: properties of `normalize_url`

Pointwise facts about `lowerChar` on the delimiter characters, used to
show that URL parsing commutes with ASCII lowercasing. -/

theorem beq_lowerChar (c d : Char) (hupp : ¬(65 ≤ d.toNat ∧ d.toNat ≤ 90))
    (hlow : ¬(97 ≤ d.toNat ∧ d.toNat ≤ 122)) :
    (lowerChar c == d) = (c == d) := by
  by_cases h : c = d
  · subst h
    rw [lowerChar_eq_self c hupp]
  · have h2 : lowerChar c ≠ d := fun hc => h ((lowerChar_eq_iff c d hupp hlow).mp hc)
    simp [h, h2]

theorem beq_slash_lowerChar (c : Char) : (lowerChar c == '/') = (c == '/') :=
  beq_lowerChar c '/' (by decide) (by decide)

theorem beq_query_lowerChar (c : Char) : (lowerChar c == '?') = (c == '?') :=
  beq_lowerChar c '?' (by decide) (by decide)

theorem beq_frag_lowerChar (c : Char) : (lowerChar c == '#') = (c == '#') :=
  beq_lowerChar c '#' (by decide) (by decide)

theorem beq_semi_lowerChar (c : Char) : (lowerChar c == ';') = (c == ';') :=
  beq_lowerChar c ';' (by decide) (by decide)

theorem eq_colon_lowerChar (c : Char) : lowerChar c = ':' ↔ c = ':' :=
  lowerChar_eq_iff c ':' (by decide) (by decide)

theorem isDigit_lowerChar (c : Char) : (lowerChar c).isDigit = c.isDigit := by
  by_cases h : 65 ≤ c.toNat ∧ c.toNat ≤ 90
  · have h2 := lowerChar_toNat_upper c h
    have hl : (lowerChar c).isDigit = false := by
      rw [← Bool.not_eq_true]
      intro hc
      have := (isDigit_iff _).mp hc
      omega
    have hr : c.isDigit = false := by
      rw [← Bool.not_eq_true]
      intro hc
      have := (isDigit_iff _).mp hc
      omega
    rw [hl, hr]
  · rw [lowerChar_eq_self c h]

theorem schemeChar_lowerChar (c : Char) : schemeChar (lowerChar c) = schemeChar c := by
  rw [schemeChar, schemeChar, isAlpha_lowerChar, isDigit_lowerChar,
    beq_lowerChar c '+' (by decide) (by decide),
    beq_lowerChar c '-' (by decide) (by decide),
    beq_lowerChar c '.' (by decide) (by decide)]

theorem notNetlocDelim_lowerChar (c : Char) :
    notNetlocDelim (lowerChar c) = notNetlocDelim c := by
  rw [notNetlocDelim, notNetlocDelim, beq_slash_lowerChar, beq_query_lowerChar,
    beq_frag_lowerChar]

theorem notQF_lowerChar (c : Char) : notQF (lowerChar c) = notQF c := by
  rw [notQF, notQF, beq_query_lowerChar, beq_frag_lowerChar]

theorem lowerChar_comp_lowerChar : lowerChar ∘ lowerChar = lowerChar :=
  funext lowerChar_idem

theorem notNetlocDelim_comp_lowerChar : notNetlocDelim ∘ lowerChar = notNetlocDelim :=
  funext notNetlocDelim_lowerChar

theorem notQF_comp_lowerChar : notQF ∘ lowerChar = notQF :=
  funext notQF_lowerChar

theorem schemeChar_comp_lowerChar : schemeChar ∘ lowerChar = schemeChar :=
  funext schemeChar_lowerChar

/-! URL parsing commutes with ASCII lowercasing. -/

theorem splitOnColon_map_lowerChar (l : List Char) :
    splitOnColon (l.map lowerChar) =
      (splitOnColon l).map (fun p => (p.1.map lowerChar, p.2.map lowerChar)) := by
  induction l with
  | nil => rfl
  | cons c cs ih =>
    rw [List.map_cons, splitOnColon, splitOnColon]
    by_cases h : c = ':'
    · subst h
      rw [if_pos (by decide : lowerChar ':' = ':'), if_pos rfl]
      rfl
    · have h2 : lowerChar c ≠ ':' := fun hc => h ((eq_colon_lowerChar c).mp hc)
      rw [if_neg h2, if_neg h, ih]
      cases hsp : splitOnColon cs with
      | none => rfl
      | some p =>
        obtain ⟨a, b⟩ := p
        rfl

theorem headIsAlpha_map_lowerChar (a : List Char) :
    headIsAlpha (a.map lowerChar) = headIsAlpha a := by
  cases a with
  | nil => rfl
  | cons c t =>
    rw [List.map_cons, headIsAlpha, headIsAlpha, isAlpha_lowerChar]

theorem all_map_congr (p q : Char → Bool) (h : p ∘ lowerChar = q) (l : List Char) :
    (l.map lowerChar).all p = l.all q := by
  rw [List.all_map, h]

theorem splitSchemeCL_map_lowerChar (l : List Char) :
    splitSchemeCL (l.map lowerChar) =
      ((splitSchemeCL l).1, (splitSchemeCL l).2.map lowerChar) := by
  rw [splitSchemeCL, splitSchemeCL, splitOnColon_map_lowerChar]
  cases hsp : splitOnColon l with
  | none => rfl
  | some p =>
    obtain ⟨a, b⟩ := p
    simp only [Option.map_some']
    rw [headIsAlpha_map_lowerChar, all_map_congr _ _ schemeChar_comp_lowerChar]
    by_cases hc : (headIsAlpha a && a.all schemeChar) = true
    · rw [if_pos hc, if_pos hc]
      dsimp only
      rw [List.map_map, lowerChar_comp_lowerChar]
    · rw [if_neg hc, if_neg hc]

theorem netlocSplit_map_lowerChar (l : List Char) :
    netlocSplit (l.map lowerChar) =
      ((netlocSplit l).1.map lowerChar, (netlocSplit l).2.map lowerChar) := by
  cases l with
  | nil => rfl
  | cons c1 t =>
    cases t with
    | nil => rfl
    | cons c2 r =>
      rw [List.map_cons, List.map_cons, netlocSplit, netlocSplit]
      have h1 : (lowerChar c1 = '/' ∧ lowerChar c2 = '/') ↔ (c1 = '/' ∧ c2 = '/') := by
        rw [lowerChar_eq_iff c1 '/' (by decide) (by decide),
          lowerChar_eq_iff c2 '/' (by decide) (by decide)]
      by_cases h : c1 = '/' ∧ c2 = '/'
      · rw [if_pos (h1.mpr h), if_pos h]
        dsimp only
        rw [List.takeWhile_map, List.dropWhile_map, notNetlocDelim_comp_lowerChar]
      · rw [if_neg (fun hc => h (h1.mp hc)), if_neg h]
        rfl

theorem rawPath_map_lowerChar (l : List Char) :
    rawPath (l.map lowerChar) = (rawPath l).map lowerChar := by
  rw [rawPath, rawPath, List.takeWhile_map, notQF_comp_lowerChar]

theorem any_congr_fun {p q : Char → Bool} (h : ∀ c, p c = q c) (l : List Char) :
    l.any p = l.any q := by
  have hpq : p = q := funext h
  rw [hpq]

theorem any_semi_map_lowerChar (l : List Char) :
    (l.map lowerChar).any (fun c => c == ';') = l.any (fun c => c == ';') := by
  rw [List.any_map]
  exact any_congr_fun (fun c => beq_semi_lowerChar c) l

theorem any_slash_map_lowerChar (l : List Char) :
    (l.map lowerChar).any (fun c => c == '/') = l.any (fun c => c == '/') := by
  rw [List.any_map]
  exact any_congr_fun (fun c => beq_slash_lowerChar c) l

theorem dropParams_map_lowerChar (p : List Char) :
    dropParams (p.map lowerChar) = (dropParams p).map lowerChar := by
  rw [dropParams, dropParams, any_slash_map_lowerChar]
  have hslash : (fun c => !(c == '/')) ∘ lowerChar = (fun c => !(c == '/')) := by
    funext c
    simp only [Function.comp]
    rw [beq_slash_lowerChar]
  have hsemi : (fun c => !(c == ';')) ∘ lowerChar = (fun c => !(c == ';')) := by
    funext c
    simp only [Function.comp]
    rw [beq_semi_lowerChar]
  by_cases h : p.any (fun c => c == '/') = true
  · rw [if_pos h, if_pos h]
    dsimp only
    rw [← List.map_reverse, List.takeWhile_map, List.dropWhile_map, hslash,
      ← List.map_reverse, ← List.map_reverse, List.takeWhile_map, hsemi,
      List.map_append]
  · rw [if_neg h, if_neg h]
    rw [List.takeWhile_map, hsemi]

theorem urlparseNetlocPath_map_lowerChar (l : List Char) :
    urlparseNetlocPath (l.map lowerChar) =
      ((urlparseNetlocPath l).1.map lowerChar, (urlparseNetlocPath l).2.map lowerChar) := by
  rw [urlparseNetlocPath, urlparseNetlocPath, splitSchemeCL_map_lowerChar]
  dsimp only
  rw [netlocSplit_map_lowerChar]
  dsimp only
  rw [rawPath_map_lowerChar, any_semi_map_lowerChar]
  by_cases h : (usesParams.contains (String.mk ((splitSchemeCL l).1.getD []))
      && (rawPath (netlocSplit (splitSchemeCL l).2).2).any (fun c => c == ';')) = true
  · rw [if_pos h, if_pos h, dropParams_map_lowerChar]
  · rw [if_neg h, if_neg h]

theorem rstripSlashes_map_lowerChar (l : List Char) :
    rstripSlashes (l.map lowerChar) = (rstripSlashes l).map lowerChar := by
  have hslash : (fun c => c == '/') ∘ lowerChar = (fun c => c == '/') := by
    funext c
    simp only [Function.comp]
    rw [beq_slash_lowerChar]
  rw [rstripSlashes, rstripSlashes, ← List.map_reverse, List.dropWhile_map, hslash,
    ← List.map_reverse]

/-- `normalize_url` applied to the ASCII-lowercased input gives the same
result as on the original input. -/
theorem normalize_url_map_lowerChar (l : List Char) :
    (rstripSlashes ((urlparseNetlocPath (l.map lowerChar)).1
        ++ (urlparseNetlocPath (l.map lowerChar)).2)).map lowerChar =
    (rstripSlashes ((urlparseNetlocPath l).1 ++ (urlparseNetlocPath l).2)).map lowerChar := by
  rw [urlparseNetlocPath_map_lowerChar]
  dsimp only
  rw [← List.map_append, rstripSlashes_map_lowerChar, List.map_map,
    lowerChar_comp_lowerChar]

/-! List utilities for the trailing-slash and idempotence arguments. -/

theorem takeWhile_append_ite (p : Char → Bool) (l l2 : List Char) :
    (l ++ l2).takeWhile p =
      if l.all p = true then l ++ l2.takeWhile p else l.takeWhile p := by
  induction l with
  | nil => simp
  | cons c t ih =>
    by_cases hc : p c
    · rw [List.cons_append, List.takeWhile_cons, if_pos hc, ih, List.takeWhile_cons,
        if_pos hc, List.all_cons, hc, Bool.true_and]
      by_cases ht : t.all p = true
      · rw [if_pos ht, if_pos ht, List.cons_append]
      · rw [if_neg ht, if_neg ht]
    · have hcf : p c = false := Bool.eq_false_iff.mpr hc
      simp [List.takeWhile_cons, hcf]

theorem dropWhile_append_ite (p : Char → Bool) (l l2 : List Char) :
    (l ++ l2).dropWhile p =
      if l.all p = true then l2.dropWhile p else l.dropWhile p ++ l2 := by
  induction l with
  | nil => simp
  | cons c t ih =>
    by_cases hc : p c
    · rw [List.cons_append, List.dropWhile_cons, if_pos hc, ih, List.all_cons, hc,
        Bool.true_and]
      by_cases ht : t.all p = true
      · rw [if_pos ht, if_pos ht]
      · rw [if_neg ht, if_neg ht, List.dropWhile_cons, if_pos hc]
    · have hcf : p c = false := Bool.eq_false_iff.mpr hc
      simp [List.dropWhile_cons, hcf]

theorem takeWhile_eq_self_of_all (p : Char → Bool) (l : List Char) (h : l.all p = true) :
    l.takeWhile p = l := by
  induction l with
  | nil => rfl
  | cons c t ih =>
    rw [List.all_cons, Bool.and_eq_true] at h
    rw [List.takeWhile_cons, if_pos h.1, ih h.2]

theorem dropWhile_eq_nil_of_all (p : Char → Bool) (l : List Char) (h : l.all p = true) :
    l.dropWhile p = [] := by
  induction l with
  | nil => rfl
  | cons c t ih =>
    rw [List.all_cons, Bool.and_eq_true] at h
    rw [List.dropWhile_cons, if_pos h.1]
    exact ih h.2

theorem head?_dropWhile (p : Char → Bool) (y : List Char) (c : Char)
    (h : (y.dropWhile p).head? = some c) : p c = false := by
  induction y with
  | nil => simp [List.dropWhile] at h
  | cons d t ih =>
    rw [List.dropWhile_cons] at h
    by_cases hd : p d
    · rw [if_pos hd] at h
      exact ih h
    · rw [if_neg hd] at h
      simp at h
      subst h
      exact Bool.eq_false_iff.mpr hd

theorem dropWhile_eq_self_of_head (p : Char → Bool) (y : List Char)
    (h : ∀ c, y.head? = some c → p c = false) : y.dropWhile p = y := by
  cases y with
  | nil => rfl
  | cons d t =>
    rw [List.dropWhile_cons, if_neg (by simp [h d rfl])]

theorem rstripSlashes_append_slash (l : List Char) :
    rstripSlashes (l ++ ['/']) = rstripSlashes l := by
  rw [rstripSlashes, rstripSlashes, List.reverse_append]
  rfl

theorem rstripSlashes_getLast? (l : List Char) :
    (rstripSlashes l).getLast? ≠ some '/' := by
  intro hc
  rw [rstripSlashes, List.getLast?_reverse] at hc
  have := head?_dropWhile _ _ _ hc
  simp at this

theorem rstripSlashes_eq_self (l : List Char) (h : l.getLast? ≠ some '/') :
    rstripSlashes l = l := by
  rw [rstripSlashes, dropWhile_eq_self_of_head _ _ ?_, List.reverse_reverse]
  intro c hcc
  rw [List.head?_reverse] at hcc
  have hcne : c ≠ '/' := fun hc => h (hc ▸ hcc)
  simp [hcne]

/-! Character-membership chains through the URL parser. -/

theorem mem_of_mem_takeWhile {p : Char → Bool} {l : List Char} {c : Char}
    (h : c ∈ l.takeWhile p) : c ∈ l :=
  (List.takeWhile_sublist p).subset h

theorem mem_of_mem_dropWhile {p : Char → Bool} {l : List Char} {c : Char}
    (h : c ∈ l.dropWhile p) : c ∈ l :=
  (List.dropWhile_sublist p).subset h

theorem prop_of_mem_takeWhile {p : Char → Bool} {l : List Char} {c : Char}
    (h : c ∈ l.takeWhile p) : p c = true := by
  induction l with
  | nil => simp [List.takeWhile] at h
  | cons d t ih =>
    rw [List.takeWhile_cons] at h
    by_cases hd : p d
    · rw [if_pos hd] at h
      rcases List.mem_cons.mp h with rfl | h
      · exact hd
      · exact ih h
    · rw [if_neg hd] at h
      exact absurd h (List.not_mem_nil _)

theorem mem_splitOnColon_right {l a b : List Char} {c : Char}
    (h : splitOnColon l = some (a, b)) (hc : c ∈ b) : c ∈ l := by
  induction l generalizing a with
  | nil => simp [splitOnColon] at h
  | cons d t ih =>
    rw [splitOnColon] at h
    by_cases hd : d = ':'
    · rw [if_pos hd] at h
      injection h with h
      injection h with _ h2
      subst h2
      exact List.mem_cons_of_mem _ hc
    · rw [if_neg hd] at h
      cases hsp : splitOnColon t with
      | none => rw [hsp] at h; exact absurd h (by simp)
      | some p =>
        obtain ⟨a2, b2⟩ := p
        rw [hsp] at h
        injection h with h
        injection h with h1 h2
        subst h2
        exact List.mem_cons_of_mem _ (ih hsp)

theorem mem_splitSchemeCL_right {l : List Char} {c : Char}
    (h : c ∈ (splitSchemeCL l).2) : c ∈ l := by
  rw [splitSchemeCL] at h
  cases hsp : splitOnColon l with
  | none => rw [hsp] at h; exact h
  | some p =>
    obtain ⟨a, b⟩ := p
    rw [hsp] at h
    dsimp only at h
    by_cases hv : (headIsAlpha a && a.all schemeChar) = true
    · rw [if_pos hv] at h
      exact mem_splitOnColon_right hsp h
    · rw [if_neg hv] at h
      exact h

theorem mem_netlocSplit_right {r : List Char} {c : Char}
    (h : c ∈ (netlocSplit r).2) : c ∈ r := by
  cases r with
  | nil => exact h
  | cons c1 t =>
    cases t with
    | nil => exact h
    | cons c2 rr =>
      rw [netlocSplit] at h
      by_cases hs : c1 = '/' ∧ c2 = '/'
      · rw [if_pos hs] at h
        exact List.mem_cons_of_mem _ (List.mem_cons_of_mem _ (mem_of_mem_dropWhile h))
      · rw [if_neg hs] at h
        exact h

theorem mem_netlocSplit_left {r : List Char} {c : Char}
    (h : c ∈ (netlocSplit r).1) : c ∈ r := by
  cases r with
  | nil => exact h
  | cons c1 t =>
    cases t with
    | nil => exact absurd (show c ∈ ([] : List Char) from h) (List.not_mem_nil _)
    | cons c2 rr =>
      rw [netlocSplit] at h
      by_cases hs : c1 = '/' ∧ c2 = '/'
      · rw [if_pos hs] at h
        exact List.mem_cons_of_mem _ (List.mem_cons_of_mem _ (mem_of_mem_takeWhile h))
      · rw [if_neg hs] at h
        exact absurd h (List.not_mem_nil _)

theorem mem_dropParams {p : List Char} {c : Char} (h : c ∈ dropParams p) : c ∈ p := by
  rw [dropParams] at h
  by_cases hs : p.any (fun c => c == '/') = true
  · rw [if_pos hs] at h
    rcases List.mem_append.mp h with h | h
    · rw [List.mem_reverse] at h
      exact (List.mem_reverse).mp (mem_of_mem_dropWhile h)
    · have h2 := mem_of_mem_takeWhile h
      rw [List.mem_reverse] at h2
      exact (List.mem_reverse).mp (mem_of_mem_takeWhile h2)
  · rw [if_neg hs] at h
    exact mem_of_mem_takeWhile h

theorem mem_urlparse_path {l : List Char} {c : Char}
    (h : c ∈ (urlparseNetlocPath l).2) : c ∈ l := by
  rw [urlparseNetlocPath] at h
  dsimp only at h
  by_cases hg : (usesParams.contains (String.mk ((splitSchemeCL l).1.getD []))
      && (rawPath (netlocSplit (splitSchemeCL l).2).2).any (fun c => c == ';')) = true
  · rw [if_pos hg] at h
    exact mem_splitSchemeCL_right (mem_netlocSplit_right (mem_of_mem_takeWhile
      (mem_dropParams h)))
  · rw [if_neg hg] at h
    exact mem_splitSchemeCL_right (mem_netlocSplit_right (mem_of_mem_takeWhile h))

theorem mem_urlparse_netloc {l : List Char} {c : Char}
    (h : c ∈ (urlparseNetlocPath l).1) : c ∈ l := by
  rw [urlparseNetlocPath] at h
  dsimp only at h
  exact mem_splitSchemeCL_right (mem_netlocSplit_left h)

/-! Appending a trailing `/` to the input. -/

theorem splitOnColon_append_nonColon (l : List Char) (c : Char) (hc : c ≠ ':') :
    splitOnColon (l ++ [c]) = (splitOnColon l).map (fun p => (p.1, p.2 ++ [c])) := by
  induction l with
  | nil =>
    rw [List.nil_append, splitOnColon, splitOnColon, if_neg hc]
    rfl
  | cons d t ih =>
    rw [List.cons_append, splitOnColon, splitOnColon]
    by_cases hd : d = ':'
    · rw [if_pos hd, if_pos hd]
      rfl
    · rw [if_neg hd, if_neg hd, ih]
      cases hsp : splitOnColon t with
      | none => rfl
      | some p =>
        obtain ⟨a, b⟩ := p
        rfl

theorem splitSchemeCL_append_slash (l : List Char) :
    splitSchemeCL (l ++ ['/']) = ((splitSchemeCL l).1, (splitSchemeCL l).2 ++ ['/']) := by
  rw [splitSchemeCL, splitSchemeCL, splitOnColon_append_nonColon l '/' (by decide)]
  cases hsp : splitOnColon l with
  | none => rfl
  | some p =>
    obtain ⟨a, b⟩ := p
    simp only [Option.map_some']
    by_cases hv : (headIsAlpha a && a.all schemeChar) = true
    · rw [if_pos hv, if_pos hv]
    · rw [if_neg hv, if_neg hv]

/-- Either the appended `/` survives into the path, or it is cut off by a
`?`/`#`; in both cases the slash-stripped path is unchanged. -/
theorem rawPath_append_slash (x : List Char) :
    rawPath (x ++ ['/']) = rawPath x ++ ['/'] ∨ rawPath (x ++ ['/']) = rawPath x := by
  rw [rawPath, rawPath, takeWhile_append_ite]
  by_cases h : x.all notQF = true
  · left
    rw [if_pos h, takeWhile_eq_self_of_all _ _ h]
    rfl
  · right
    rw [if_neg h]

theorem rstrip_append_rawPath_slash (nl x : List Char) :
    rstripSlashes (nl ++ rawPath (x ++ ['/'])) = rstripSlashes (nl ++ rawPath x) := by
  rcases rawPath_append_slash x with h | h
  · rw [h, ← List.append_assoc, rstripSlashes_append_slash]
  · rw [h]

/-- The slash-stripped netloc-plus-path is unchanged by a trailing `/` on
the post-scheme remainder. -/
theorem npFull_append_slash (r : List Char) :
    rstripSlashes ((netlocSplit (r ++ ['/'])).1 ++ rawPath (netlocSplit (r ++ ['/'])).2) =
    rstripSlashes ((netlocSplit r).1 ++ rawPath (netlocSplit r).2) := by
  cases r with
  | nil => decide
  | cons c1 t =>
    cases t with
    | nil =>
      by_cases h : c1 = '/'
      · subst h
        decide
      · rw [List.cons_append, List.nil_append, netlocSplit, if_neg (by simp [h])]
        have hup : netlocSplit [c1] = ([], [c1]) := rfl
        rw [hup]
        exact rstrip_append_rawPath_slash [] [c1]
    | cons c2 rr =>
      rw [List.cons_append, List.cons_append, netlocSplit, netlocSplit]
      by_cases h : c1 = '/' ∧ c2 = '/'
      · rw [if_pos h, if_pos h]
        dsimp only
        rw [takeWhile_append_ite, dropWhile_append_ite]
        by_cases hall : rr.all notNetlocDelim = true
        · rw [if_pos hall, if_pos hall]
          have h1 : List.takeWhile notNetlocDelim ['/'] = [] := rfl
          have h2 : List.dropWhile notNetlocDelim ['/'] = ['/'] := rfl
          have h3 := dropWhile_eq_nil_of_all notNetlocDelim rr hall
          rw [h1, h2, h3, takeWhile_eq_self_of_all _ _ hall, List.append_nil]
          show rstripSlashes (rr ++ rawPath ([] ++ ['/'])) = rstripSlashes (rr ++ rawPath [])
          exact rstrip_append_rawPath_slash rr []
        · rw [if_neg hall, if_neg hall]
          exact rstrip_append_rawPath_slash _ _
      · rw [if_neg h, if_neg h]
        exact rstrip_append_rawPath_slash [] (c1 :: c2 :: rr)

/-! Facts about the characters of `normalize_url`'s output. -/

theorem getLast?_map_char (f : Char → Char) (l : List Char) :
    (l.map f).getLast? = (l.getLast?).map f := by
  rw [← List.head?_reverse, ← List.head?_reverse, ← List.map_reverse]
  cases l.reverse with
  | nil => rfl
  | cons c t => rfl

/-- The normalized form never ends in a slash (rstrip removes them all,
and lowercasing maps no character to `'/'`). -/
theorem normalize_url_no_trailing_slash (u : String) :
    (normalize_url u).data.getLast? ≠ some '/' := by
  rw [normalize_url]
  intro hc
  rw [show (String.mk ((rstripSlashes ((urlparseNetlocPath u.data).1
      ++ (urlparseNetlocPath u.data).2)).map lowerChar)).data
      = (rstripSlashes ((urlparseNetlocPath u.data).1
        ++ (urlparseNetlocPath u.data).2)).map lowerChar from rfl,
    getLast?_map_char] at hc
  cases hlast : (rstripSlashes ((urlparseNetlocPath u.data).1
      ++ (urlparseNetlocPath u.data).2)).getLast? with
  | none => rw [hlast] at hc; exact absurd hc (by simp)
  | some d =>
    rw [hlast] at hc
    simp only [Option.map_some', Option.some.injEq] at hc
    have hd : d = '/' := (lowerChar_eq_iff d '/' (by decide) (by decide)).mp hc
    exact rstripSlashes_getLast? _ (hd ▸ hlast)

theorem mem_rstripSlashes {l : List Char} {c : Char} (h : c ∈ rstripSlashes l) :
    c ∈ l := by
  rw [rstripSlashes, List.mem_reverse] at h
  rw [← List.mem_reverse]
  exact mem_of_mem_dropWhile h

theorem notNetlocDelim_imp_notQF (c : Char) (h : notNetlocDelim c = true) :
    notQF c = true := by
  rw [notNetlocDelim] at h
  rw [notQF]
  revert h
  cases hq : (c == '?') <;> cases hf : (c == '#') <;> cases hs : (c == '/') <;> simp

theorem netloc_chars_notDelim {r : List Char} {c : Char}
    (h : c ∈ (netlocSplit r).1) : notNetlocDelim c = true := by
  cases r with
  | nil => exact absurd h (List.not_mem_nil _)
  | cons c1 t =>
    cases t with
    | nil => exact absurd (show c ∈ ([] : List Char) from h) (List.not_mem_nil _)
    | cons c2 rr =>
      rw [netlocSplit] at h
      by_cases hs : c1 = '/' ∧ c2 = '/'
      · rw [if_pos hs] at h
        exact prop_of_mem_takeWhile h
      · rw [if_neg hs] at h
        exact absurd h (List.not_mem_nil _)

theorem path_chars_notQF {l : List Char} {c : Char}
    (h : c ∈ (urlparseNetlocPath l).2) : notQF c = true := by
  rw [urlparseNetlocPath] at h
  dsimp only at h
  by_cases hg : (usesParams.contains (String.mk ((splitSchemeCL l).1.getD []))
      && (rawPath (netlocSplit (splitSchemeCL l).2).2).any (fun c => c == ';')) = true
  · rw [if_pos hg] at h
    exact prop_of_mem_takeWhile (mem_dropParams h)
  · rw [if_neg hg] at h
    exact prop_of_mem_takeWhile h

theorem normalize_data_notQF (u : String) :
    ∀ c ∈ (normalize_url u).data, notQF c = true := by
  intro c hc
  rw [normalize_url] at hc
  rw [show (String.mk ((rstripSlashes ((urlparseNetlocPath u.data).1
      ++ (urlparseNetlocPath u.data).2)).map lowerChar)).data
      = (rstripSlashes ((urlparseNetlocPath u.data).1
        ++ (urlparseNetlocPath u.data).2)).map lowerChar from rfl] at hc
  obtain ⟨d, hd, rfl⟩ := List.mem_map.mp hc
  rw [notQF_lowerChar]
  rcases List.mem_append.mp (mem_rstripSlashes hd) with h | h
  · exact notNetlocDelim_imp_notQF d (netloc_chars_notDelim
      (by rw [urlparseNetlocPath] at h; exact h))
  · exact path_chars_notQF h

theorem splitOnColon_eq_none (l : List Char) (h : ∀ c ∈ l, c ≠ ':') :
    splitOnColon l = none := by
  induction l with
  | nil => rfl
  | cons c t ih =>
    rw [splitOnColon, if_neg (h c (List.mem_cons_self _ _)), ih]
    intro d hd
    exact h d (List.mem_cons_of_mem _ hd)

theorem netlocSplit_eq_self (l : List Char) (h : l.take 2 ≠ ['/', '/']) :
    netlocSplit l = ([], l) := by
  cases l with
  | nil => rfl
  | cons c1 t =>
    cases t with
    | nil => rfl
    | cons c2 rr =>
      rw [netlocSplit, if_neg ?_]
      intro hc
      exact h (by rw [hc.1, hc.2]; rfl)

theorem splitOnColon_append_colon (a b : List Char) (h : ∀ c ∈ a, c ≠ ':') :
    splitOnColon (a ++ ':' :: b) = some (a, b) := by
  induction a with
  | nil => rw [List.nil_append, splitOnColon, if_pos rfl]
  | cons c t ih =>
    rw [List.cons_append, splitOnColon, if_neg (h c (List.mem_cons_self _ _)),
      ih (fun d hd => h d (List.mem_cons_of_mem _ hd))]

theorem any_semi_eq_false (l : List Char) (h : ∀ c ∈ l, c ≠ ';') :
    l.any (fun c => c == ';') = false := by
  rw [← Bool.not_eq_true, List.any_eq_true]
  rintro ⟨c, hc, hcc⟩
  exact h c hc (by simpa using hcc)

/-- Scheme characters never include `':'`. -/
theorem schemeChar_ne_colon {c : Char} (h : schemeChar c = true) : c ≠ ':' := by
  intro hc
  subst hc
  exact absurd h (by decide)

/-- A valid scheme is stripped: parsing `scheme:rest` continues on `rest`,
so the normalized form does not depend on which valid scheme was
attached (as long as both sides of the `uses_params` test agree). -/
theorem normalize_scheme_independent (s1 s2 rest : String)
    (h1 : (headIsAlpha s1.data && s1.data.all schemeChar) = true)
    (h2 : (headIsAlpha s2.data && s2.data.all schemeChar) = true)
    (h3 : usesParams.contains (String.mk (s1.data.map lowerChar))
        = usesParams.contains (String.mk (s2.data.map lowerChar))) :
    normalize_url (s1 ++ ":" ++ rest) = normalize_url (s2 ++ ":" ++ rest) := by
  have hd1 : (s1 ++ ":" ++ rest).data = s1.data ++ ':' :: rest.data := by
    rw [String.data_append, String.data_append]
    rw [show (":" : String).data = [':'] from rfl, List.append_assoc]
    rfl
  have hd2 : (s2 ++ ":" ++ rest).data = s2.data ++ ':' :: rest.data := by
    rw [String.data_append, String.data_append]
    rw [show (":" : String).data = [':'] from rfl, List.append_assoc]
    rfl
  have hall1 : s1.data.all schemeChar = true := by
    revert h1
    cases s1.data.all schemeChar <;> simp
  have hall2 : s2.data.all schemeChar = true := by
    revert h2
    cases s2.data.all schemeChar <;> simp
  have hsc1 : splitSchemeCL (s1.data ++ ':' :: rest.data)
      = (some (s1.data.map lowerChar), rest.data) := by
    rw [splitSchemeCL, splitOnColon_append_colon _ _
      (fun c hc => schemeChar_ne_colon (List.all_eq_true.mp hall1 c hc))]
    dsimp only
    rw [if_pos h1]
  have hsc2 : splitSchemeCL (s2.data ++ ':' :: rest.data)
      = (some (s2.data.map lowerChar), rest.data) := by
    rw [splitSchemeCL, splitOnColon_append_colon _ _
      (fun c hc => schemeChar_ne_colon (List.all_eq_true.mp hall2 c hc))]
    dsimp only
    rw [if_pos h2]
  rw [normalize_url, normalize_url, hd1, hd2, urlparseNetlocPath, urlparseNetlocPath,
    hsc1, hsc2]
  dsimp only
  simp only [Option.getD_some]
  simp only [h3]

/-- Adding one more trailing slash does not change the normalized form
(for inputs without `';'`, whose path is unaffected by the params
split). -/
theorem normalize_append_slash (u : String) (h : ∀ c ∈ u.data, c ≠ ';') :
    normalize_url (u ++ "/") = normalize_url u := by
  have hdata : (u ++ "/").data = u.data ++ ['/'] := String.data_append u "/"
  rw [normalize_url, normalize_url, hdata, urlparseNetlocPath, urlparseNetlocPath,
    splitSchemeCL_append_slash]
  dsimp only
  have hsemir : ∀ c ∈ (splitSchemeCL u.data).2, c ≠ ';' :=
    fun c hc => h c (mem_splitSchemeCL_right hc)
  have hg1 : (rawPath (netlocSplit ((splitSchemeCL u.data).2 ++ ['/'])).2).any
      (fun c => c == ';') = false := by
    apply any_semi_eq_false
    intro c hc
    rcases List.mem_append.mp (mem_netlocSplit_right (mem_of_mem_takeWhile hc)) with h2 | h2
    · exact hsemir c h2
    · simp only [List.mem_singleton] at h2
      subst h2
      decide
  have hg2 : (rawPath (netlocSplit (splitSchemeCL u.data).2).2).any
      (fun c => c == ';') = false := by
    apply any_semi_eq_false
    intro c hc
    exact hsemir c (mem_netlocSplit_right (mem_of_mem_takeWhile hc))
  rw [hg1, hg2, Bool.and_false, if_neg (by simp), if_neg (by simp)]
  congr 1
  rw [npFull_append_slash]

/-- Idempotence of `normalize_url`, for normalized forms that do not
contain `':'` or `';'` and do not begin with `//` (on other inputs
re-parsing misreads the result, see the counterexample). -/
theorem normalize_idempotent_aux (u : String)
    (hcol : ∀ c ∈ (normalize_url u).data, c ≠ ':')
    (hsemi : ∀ c ∈ (normalize_url u).data, c ≠ ';')
    (hss : (normalize_url u).data.take 2 ≠ ['/', '/']) :
    normalize_url (normalize_url u) = normalize_url u := by
  have hsc : splitSchemeCL (normalize_url u).data = (none, (normalize_url u).data) := by
    rw [splitSchemeCL, splitOnColon_eq_none _ hcol]
  have hns := netlocSplit_eq_self (normalize_url u).data hss
  have hrp : rawPath (normalize_url u).data = (normalize_url u).data :=
    takeWhile_eq_self_of_all _ _ (List.all_eq_true.mpr (normalize_data_notQF u))
  have hanys := any_semi_eq_false (normalize_url u).data hsemi
  have hrs : rstripSlashes (normalize_url u).data = (normalize_url u).data :=
    rstripSlashes_eq_self _ (normalize_url_no_trailing_slash u)
  have hmap : (normalize_url u).data.map lowerChar = (normalize_url u).data := by
    rw [show (normalize_url u).data
        = (rstripSlashes ((urlparseNetlocPath u.data).1
          ++ (urlparseNetlocPath u.data).2)).map lowerChar from rfl,
      List.map_map, lowerChar_comp_lowerChar]
  conv_lhs => rw [normalize_url]
  rw [urlparseNetlocPath, hsc]
  dsimp only
  rw [hns]
  dsimp only
  rw [hrp, hanys, Bool.and_false, if_neg (by simp), List.nil_append, hrs, hmap]

/-- The claim's reading of trailing-slash handling: strip a *single*
trailing slash.  Follows the claim's words, for comparison with the
code's `rstrip("/")`. -/
def normalize_spec_single_slash (url : String) : String :=
  let full := (urlparseNetlocPath url.data).1 ++ (urlparseNetlocPath url.data).2
  let stripped := if full.getLast? = some '/' then full.dropLast else full
  String.mk (stripped.map lowerChar)

/-- C8 (counterexample): two conjuncts of the claim fail on the code.
`normalize_url` strips *all* trailing slashes (`rstrip("/")`), not a
single one: on `https://blog.boot.dev/path//` it returns
`blog.boot.dev/path` while the single-slash reading gives
`blog.boot.dev/path/`.  And it is not idempotent on every address: for
`https://blog.boot.dev:443/path` the first pass yields
`blog.boot.dev:443/path`, which `urlparse` re-reads as scheme
`blog.boot.dev` followed by path `443/path`, so the second pass yields
`443/path`. -/
theorem C8_normalize_counterexample :
    normalize_url "https://blog.boot.dev/path//"
      ≠ normalize_spec_single_slash "https://blog.boot.dev/path//" ∧
    normalize_url "https://blog.boot.dev/path//" = "blog.boot.dev/path" ∧
    normalize_spec_single_slash "https://blog.boot.dev/path//" = "blog.boot.dev/path/" ∧
    normalize_url (normalize_url "https://blog.boot.dev:443/path")
      ≠ normalize_url "https://blog.boot.dev:443/path" ∧
    normalize_url "https://blog.boot.dev:443/path" = "blog.boot.dev:443/path" ∧
    normalize_url (normalize_url "https://blog.boot.dev:443/path") = "443/path" :=
  ⟨by decide, by decide, by decide, by decide, by decide, by decide⟩

/-- C8 (amended): `normalize_url` is case-insensitive (fully — equal
ASCII-lowercasings give equal outputs, so in particular host case is
irrelevant); it strips any valid scheme (the output does not depend on
which scheme was attached, given agreement on the `uses_params` test),
strips *all* trailing slashes (the output never ends in `/`, and a
trailing `/` on a `;`-free address does not change the output), and is
idempotent on every address whose normalized form contains no `:` or `;`
and does not begin with `//`. -/
theorem C8_normalize_properties :
    (∀ u v : String, u.data.map lowerChar = v.data.map lowerChar →
        normalize_url u = normalize_url v) ∧
    (∀ s1 s2 rest : String,
        (headIsAlpha s1.data && s1.data.all schemeChar) = true →
        (headIsAlpha s2.data && s2.data.all schemeChar) = true →
        usesParams.contains (String.mk (s1.data.map lowerChar))
          = usesParams.contains (String.mk (s2.data.map lowerChar)) →
        normalize_url (s1 ++ ":" ++ rest) = normalize_url (s2 ++ ":" ++ rest)) ∧
    (∀ u : String, (normalize_url u).data.getLast? ≠ some '/') ∧
    (∀ u : String, (∀ c ∈ u.data, c ≠ ';') →
        normalize_url (u ++ "/") = normalize_url u) ∧
    (∀ u : String, (∀ c ∈ (normalize_url u).data, c ≠ ':' ∧ c ≠ ';') →
        (normalize_url u).data.take 2 ≠ ['/', '/'] →
        normalize_url (normalize_url u) = normalize_url u) := by
  refine ⟨?_, normalize_scheme_independent, normalize_url_no_trailing_slash,
    normalize_append_slash, ?_⟩
  · intro u v h
    rw [normalize_url, normalize_url]
    have hu := normalize_url_map_lowerChar u.data
    have hv := normalize_url_map_lowerChar v.data
    rw [← hu, ← hv, h]
  · intro u h hss
    exact normalize_idempotent_aux u (fun c hc => (h c hc).1) (fun c hc => (h c hc).2) hss

theorem C8_normalize_properties_witness :
    normalize_url "https://BLOG.boot.dev/Path" = normalize_url "https://blog.boot.dev/path" ∧
    normalize_url ("https" ++ ":" ++ "//Host/A") = normalize_url ("http" ++ ":" ++ "//Host/A") ∧
    (normalize_url "https://blog.boot.dev/path//").data.getLast? ≠ some '/' ∧
    normalize_url ("https://blog.boot.dev/path/" ++ "/")
      = normalize_url "https://blog.boot.dev/path/" ∧
    normalize_url (normalize_url "https://blog.boot.dev/path")
      = normalize_url "https://blog.boot.dev/path" :=
  ⟨C8_normalize_properties.1 "https://BLOG.boot.dev/Path" "https://blog.boot.dev/path"
      (by decide),
   C8_normalize_properties.2.1 "https" "http" "//Host/A" (by decide) (by decide) (by decide),
   C8_normalize_properties.2.2.1 "https://blog.boot.dev/path//",
   C8_normalize_properties.2.2.2.1 "https://blog.boot.dev/path/" (by decide),
   C8_normalize_properties.2.2.2.2 "https://blog.boot.dev/path" (by decide) (by decide)⟩

end Crawler
